import Mathlib

/-!
# api_resp_diff: the comparison pipeline of `main.go`

A shallow embedding of `substituteParams`, `prettyString`, `compareResponses`,
`colorize`, `executeApiCall` and `executeApiCompare`, together with models of the
library routines they call (`strings.Replace`, `strings.Split`, `bufio.Scanner`
with `ScanLines`, `encoding/json.Indent` and `Valid`, `godebug/diff.Diff`).

Go strings are modelled as lists of characters (`Str`); where Go counts bytes
(the scanner's token limit) the UTF-8 length `byteLen` is used.  A Go map is
modelled by the list of its entries; a `range` loop over a map visits the
entries in an arbitrary order, so a function that ranges over a map takes the
entries in the order in which they are visited.
-/

namespace ApiRespDiff

/-! # The program -/

/-- Go strings as sequences of characters. -/
abbrev Str := List Char

/-! ## strings.Replace -/

/-- The scanning loop of `strings.Replace` for a non-empty `old`: at each position the
first instance of `old` is replaced by `new` and the scan resumes behind it.  The first
argument bounds the number of steps. -/
def replaceScan (old new : Str) : Nat → Str → Str
  | 0, s => s
  | n + 1, s =>
    if old <+: s then new ++ replaceScan old new n (s.drop old.length)
    else match s with
      | [] => []
      | c :: t => c :: replaceScan old new n t

/-- Model of `strings.Replace(s, old, new, -1)`: all non-overlapping instances of `old`,
found from left to right, are replaced by `new`; an empty `old` matches at the beginning
of the string and after each character. -/
def Replace (s old new : Str) : Str :=
  if old = [] then new ++ s.flatMap (fun c => c :: new)
  else replaceScan old new s.length s

/-! ## substituteParams (main.go 163-169) -/

/-- Embedding of `substituteParams`; `params` lists the entries of the map in the order in
which the `range` loop visits them. -/
def substituteParams (api : Str) (params : List (Str × Str)) (paramPrefix paramPostfix : Str) :
    Str :=
  params.foldl (fun afterReplace kv => Replace afterReplace (paramPrefix ++ kv.1 ++ paramPostfix) kv.2)
    api

/-! ## bufio.Scanner with ScanLines, and colorize (main.go 113-136) -/

/-- Number of bytes of the UTF-8 encoding: the `len` of a Go string. -/
def byteLen (s : Str) : Nat := (s.map Char.utf8Size).sum

/-- The constant `bufio.MaxScanTokenSize`: the scanner's buffer never grows beyond it. -/
def MaxScanTokenSize : Nat := 64 * 1024

/-- Model of `dropCR` of package bufio: one trailing carriage return is removed. -/
def dropCR (data : Str) : Str :=
  if data.getLast? = some '\r' then data.dropLast else data

/-- Model of the token sequence of a `bufio.Scanner` with the default split function
`ScanLines` over a string reader; `cur` is the part of the current line read so far.  A line
ends at `\n`; an empty final line is not a token; a line that does not fit the buffer
together with its end-of-line (`MaxScanTokenSize` bytes) makes `Scan` return false for
good. -/
def scanFrom (cur : Str) : Str → List Str
  | [] => if cur = [] then [] else [dropCR cur]
  | c :: t =>
    if c = '\n' then dropCR cur :: scanFrom [] t
    else if MaxScanTokenSize ≤ byteLen cur + c.utf8Size then []
    else scanFrom (cur ++ [c]) t

/-- The values of `scanner.Text()` over the successful calls of `scanner.Scan()`. -/
def scanLines (data : Str) : List Str := scanFrom [] data

def Reset : Str := "\x1b[0m".toList

def Red : Str := "\x1b[31m".toList

def Green : Str := "\x1b[32m".toList

/-- Embedding of `inRed`. -/
def inRed (str : Str) : Str := Red ++ str ++ Reset

/-- Embedding of `inGreen`. -/
def inGreen (str : Str) : Str := Green ++ str ++ Reset

/-- The body of the loop of `colorize` over the scanned lines, `b` being the buffer; the
slice `s[0:1]` of an empty line is out of range, a run-time panic (`none`). -/
def colorizeLoop (b : Str) : List Str → Option Str
  | [] => some b
  | s :: rest =>
    if s = [] then none
    else
      let s2 := if s.take 1 = "+".toList then inGreen s
        else if s.take 1 = "-".toList then inRed s else s
      colorizeLoop (b ++ s2 ++ "\n".toList) rest

/-- Embedding of `colorize`; `none` is a run-time panic. -/
def colorize (diff : Str) : Option Str := colorizeLoop [] (scanLines diff)

/-! ## encoding/json: the scanner and Indent -/

/-- The step functions of the JSON scanner (`stateBeginValue`, ... of scanner.go). -/
inductive StepFn where
  | beginValueOrEmpty | beginValue | beginStringOrEmpty | beginString
  | endValue | endTop
  | inString | inStringEsc | inStringEscU | inStringEscU1 | inStringEscU12 | inStringEscU123
  | neg | s1 | s0 | dot | dot0 | e | eSign | e0
  | t | tr | tru | f | fa | fal | fals | n | nu | nul
  | error
  deriving DecidableEq

/-- The values returned by a step function (`scanContinue`, ...). -/
inductive ScanCode where
  | scanContinue | scanBeginLiteral | scanBeginObject | scanObjectKey | scanObjectValue
  | scanEndObject | scanBeginArray | scanArrayValue | scanEndArray | scanSkipSpace
  | scanEnd | scanError
  deriving DecidableEq

/-- The entries of the scanner's parse stack. -/
inductive ParseState where
  | parseObjectKey | parseObjectValue | parseArrayValue
  deriving DecidableEq

/-- A `*json.SyntaxError`: the offending character with the context of the message, or the
unexpected end of the input; with the offset. -/
inductive SyntaxError where
  | invalidCharacter (c : Char) (context : String) (Offset : Nat)
  | unexpectedEnd (Offset : Nat)
  deriving DecidableEq

/-- The scanner of encoding/json.  `parseState` is the stack, innermost entry first. -/
structure Scanner where
  step : StepFn
  endTop : Bool
  parseState : List ParseState
  err : Option SyntaxError
  bytes : Nat

/-- The constant `maxNestingDepth` of the scanner. -/
def maxNestingDepth : Nat := 10000

/-- The scanner after `reset`. -/
def newScanner : Scanner :=
  { step := .beginValue, endTop := false, parseState := [], err := none, bytes := 0 }

/-- Model of `isSpace`. -/
def isSpace (c : Char) : Bool := c = ' ' || c = '\t' || c = '\r' || c = '\n'

def isDigit (c : Char) : Bool := decide ('0' ≤ c ∧ c ≤ '9')

def isDigit19 (c : Char) : Bool := decide ('1' ≤ c ∧ c ≤ '9')

def isHex (c : Char) : Bool :=
  decide ('0' ≤ c ∧ c ≤ '9') || decide ('a' ≤ c ∧ c ≤ 'f') || decide ('A' ≤ c ∧ c ≤ 'F')

/-- Model of `(*scanner).error`. -/
def Scanner.error (s : Scanner) (c : Char) (context : String) : Scanner × ScanCode :=
  ({ s with step := .error, err := some (.invalidCharacter c context s.bytes) }, .scanError)

/-- Model of `(*scanner).pushParseState`. -/
def Scanner.pushParseState (s : Scanner) (c : Char) (newParseState : ParseState)
    (successState : ScanCode) : Scanner × ScanCode :=
  let s1 := { s with parseState := newParseState :: s.parseState }
  if s1.parseState.length ≤ maxNestingDepth then (s1, successState)
  else s1.error c "exceeded max depth"

/-- Model of `(*scanner).popParseState`. -/
def Scanner.popParseState (s : Scanner) : Scanner :=
  let ps := s.parseState.tail
  if ps.length = 0 then { s with parseState := ps, step := .endTop, endTop := true }
  else { s with parseState := ps, step := .endValue }

/-- Model of `stateEndTop`: a character that is not a space after the top-level value is
recorded as an error, to be reported by the next call. -/
def stateEndTop (s : Scanner) (c : Char) : Scanner × ScanCode :=
  if !isSpace c then ((s.error c "after top-level value").1, .scanEnd)
  else (s, .scanEnd)

/-- Model of `stateEndValue`. -/
def stateEndValue (s : Scanner) (c : Char) : Scanner × ScanCode :=
  match s.parseState with
  | [] => stateEndTop { s with step := .endTop, endTop := true } c
  | ps :: rest =>
    if isSpace c then ({ s with step := .endValue }, .scanSkipSpace)
    else match ps with
      | .parseObjectKey =>
        if c = ':' then
          ({ s with parseState := .parseObjectValue :: rest, step := .beginValue },
            .scanObjectKey)
        else s.error c "after object key"
      | .parseObjectValue =>
        if c = ',' then
          ({ s with parseState := .parseObjectKey :: rest, step := .beginString },
            .scanObjectValue)
        else if c = '}' then (s.popParseState, .scanEndObject)
        else s.error c "after object key:value pair"
      | .parseArrayValue =>
        if c = ',' then ({ s with step := .beginValue }, .scanArrayValue)
        else if c = ']' then (s.popParseState, .scanEndArray)
        else s.error c "after array element"

/-- Model of `stateBeginValue`. -/
def stateBeginValue (s : Scanner) (c : Char) : Scanner × ScanCode :=
  if isSpace c then (s, .scanSkipSpace)
  else if c = '{' then
    Scanner.pushParseState { s with step := .beginStringOrEmpty } c .parseObjectKey
      .scanBeginObject
  else if c = '[' then
    Scanner.pushParseState { s with step := .beginValueOrEmpty } c .parseArrayValue
      .scanBeginArray
  else if c = '\x22' then ({ s with step := .inString }, .scanBeginLiteral)
  else if c = '-' then ({ s with step := .neg }, .scanBeginLiteral)
  else if c = '0' then ({ s with step := .s0 }, .scanBeginLiteral)
  else if c = 't' then ({ s with step := .t }, .scanBeginLiteral)
  else if c = 'f' then ({ s with step := .f }, .scanBeginLiteral)
  else if c = 'n' then ({ s with step := .n }, .scanBeginLiteral)
  else if isDigit19 c then ({ s with step := .s1 }, .scanBeginLiteral)
  else s.error c "looking for beginning of value"

/-- Model of `stateBeginValueOrEmpty`. -/
def stateBeginValueOrEmpty (s : Scanner) (c : Char) : Scanner × ScanCode :=
  if isSpace c then (s, .scanSkipSpace)
  else if c = ']' then stateEndValue s c
  else stateBeginValue s c

/-- Model of `stateBeginString`. -/
def stateBeginString (s : Scanner) (c : Char) : Scanner × ScanCode :=
  if isSpace c then (s, .scanSkipSpace)
  else if c = '\x22' then ({ s with step := .inString }, .scanBeginLiteral)
  else s.error c "looking for beginning of object key string"

/-- Model of `stateBeginStringOrEmpty`. -/
def stateBeginStringOrEmpty (s : Scanner) (c : Char) : Scanner × ScanCode :=
  if isSpace c then (s, .scanSkipSpace)
  else if c = '}' then
    stateEndValue { s with parseState := .parseObjectValue :: s.parseState.tail } c
  else stateBeginString s c

/-- Model of `stateInString`. -/
def stateInString (s : Scanner) (c : Char) : Scanner × ScanCode :=
  if c = '\x22' then ({ s with step := .endValue }, .scanContinue)
  else if c = '\x5c' then ({ s with step := .inStringEsc }, .scanContinue)
  else if c.toNat < 0x20 then s.error c "in string literal"
  else (s, .scanContinue)

/-- Model of `stateInStringEsc`. -/
def stateInStringEsc (s : Scanner) (c : Char) : Scanner × ScanCode :=
  if c = 'b' || c = 'f' || c = 'n' || c = 'r' || c = 't' || c = '\x5c' || c = '/' || c = '\x22'
  then ({ s with step := .inString }, .scanContinue)
  else if c = 'u' then ({ s with step := .inStringEscU }, .scanContinue)
  else s.error c "in string escape code"

/-- Model of `stateInStringEscU`, `stateInStringEscU1`, `stateInStringEscU12` and
`stateInStringEscU123`, which differ in the next step function only. -/
def stateHex (next : StepFn) (s : Scanner) (c : Char) : Scanner × ScanCode :=
  if isHex c then ({ s with step := next }, .scanContinue)
  else s.error c "in \\u hexadecimal character escape"

/-- Model of `state0`. -/
def state0 (s : Scanner) (c : Char) : Scanner × ScanCode :=
  if c = '.' then ({ s with step := .dot }, .scanContinue)
  else if c = 'e' || c = 'E' then ({ s with step := .e }, .scanContinue)
  else stateEndValue s c

/-- Model of `state1`. -/
def state1 (s : Scanner) (c : Char) : Scanner × ScanCode :=
  if isDigit c then ({ s with step := .s1 }, .scanContinue)
  else state0 s c

/-- Model of `stateNeg`. -/
def stateNeg (s : Scanner) (c : Char) : Scanner × ScanCode :=
  if c = '0' then ({ s with step := .s0 }, .scanContinue)
  else if isDigit19 c then ({ s with step := .s1 }, .scanContinue)
  else s.error c "in numeric literal"

/-- Model of `stateDot`. -/
def stateDot (s : Scanner) (c : Char) : Scanner × ScanCode :=
  if isDigit c then ({ s with step := .dot0 }, .scanContinue)
  else s.error c "after decimal point in numeric literal"

/-- Model of `stateDot0`. -/
def stateDot0 (s : Scanner) (c : Char) : Scanner × ScanCode :=
  if isDigit c then (s, .scanContinue)
  else if c = 'e' || c = 'E' then ({ s with step := .e }, .scanContinue)
  else stateEndValue s c

/-- Model of `stateESign`. -/
def stateESign (s : Scanner) (c : Char) : Scanner × ScanCode :=
  if isDigit c then ({ s with step := .e0 }, .scanContinue)
  else s.error c "in exponent of numeric literal"

/-- Model of `stateE`. -/
def stateE (s : Scanner) (c : Char) : Scanner × ScanCode :=
  if c = '+' || c = '-' then ({ s with step := .eSign }, .scanContinue)
  else stateESign s c

/-- Model of `stateE0`. -/
def stateE0 (s : Scanner) (c : Char) : Scanner × ScanCode :=
  if isDigit c then (s, .scanContinue)
  else stateEndValue s c

/-- Model of the step functions inside the literals `true`, `false` and `null`
(`stateT`, ..., `stateNul`): the expected character leads to the next step function. -/
def stateLit (expect : Char) (next : StepFn) (context : String) (s : Scanner) (c : Char) :
    Scanner × ScanCode :=
  if c = expect then ({ s with step := next }, .scanContinue)
  else s.error c context

/-- The call `s.step(s, c)`. -/
def Scanner.doStep (s : Scanner) (c : Char) : Scanner × ScanCode :=
  match s.step with
  | .beginValueOrEmpty => stateBeginValueOrEmpty s c
  | .beginValue => stateBeginValue s c
  | .beginStringOrEmpty => stateBeginStringOrEmpty s c
  | .beginString => stateBeginString s c
  | .endValue => stateEndValue s c
  | .endTop => stateEndTop s c
  | .inString => stateInString s c
  | .inStringEsc => stateInStringEsc s c
  | .inStringEscU => stateHex .inStringEscU1 s c
  | .inStringEscU1 => stateHex .inStringEscU12 s c
  | .inStringEscU12 => stateHex .inStringEscU123 s c
  | .inStringEscU123 => stateHex .inString s c
  | .neg => stateNeg s c
  | .s1 => state1 s c
  | .s0 => state0 s c
  | .dot => stateDot s c
  | .dot0 => stateDot0 s c
  | .e => stateE s c
  | .eSign => stateESign s c
  | .e0 => stateE0 s c
  | .t => stateLit 'r' .tr "in literal true (expecting 'r')" s c
  | .tr => stateLit 'u' .tru "in literal true (expecting 'u')" s c
  | .tru => stateLit 'e' .endValue "in literal true (expecting 'e')" s c
  | .f => stateLit 'a' .fa "in literal false (expecting 'a')" s c
  | .fa => stateLit 'l' .fal "in literal false (expecting 'l')" s c
  | .fal => stateLit 's' .fals "in literal false (expecting 's')" s c
  | .fals => stateLit 'e' .endValue "in literal false (expecting 'e')" s c
  | .n => stateLit 'u' .nu "in literal null (expecting 'u')" s c
  | .nu => stateLit 'l' .nul "in literal null (expecting 'l')" s c
  | .nul => stateLit 'l' .endValue "in literal null (expecting 'l')" s c
  | .error => (s, .scanError)

/-- Model of `(*scanner).eof`: the scanner afterwards, and whether the result is
`scanError`. -/
def Scanner.eof (s : Scanner) : Scanner × ScanCode :=
  if s.err.isSome then (s, .scanError)
  else if s.endTop then (s, .scanEnd)
  else
    let s1 := (s.doStep ' ').1
    if s1.endTop then (s1, .scanEnd)
    else if s1.err.isNone then
      ({ s1 with err := some (.unexpectedEnd s1.bytes) }, .scanError)
    else (s1, .scanError)

/-- Model of `appendNewline` (named `newline` in older releases). -/
def appendNewline (dst pre indent : Str) (depth : Int) : Str :=
  dst ++ ['\n'] ++ pre ++ (List.replicate depth.toNat indent).flatten

/-- The variables of the loop of `json.Indent`. -/
structure IndentLoop where
  dst : Str
  scan : Scanner
  needIndent : Bool
  depth : Int

/-- The body of the loop of `json.Indent` for a character `c` on which the scanner, now
`scan`, returned `v`, neither `scanSkipSpace` nor `scanError`. -/
def indentEmit (pre indent : Str) (st : IndentLoop) (scan : Scanner) (v : ScanCode)
    (c : Char) : IndentLoop :=
  let indentNow := st.needIndent && v ≠ .scanEndObject && v ≠ .scanEndArray
  let needIndent := if indentNow then false else st.needIndent
  let depth := if indentNow then st.depth + 1 else st.depth
  let dst := if indentNow then appendNewline st.dst pre indent depth else st.dst
  if v = .scanContinue then
    { dst := dst ++ [c], scan := scan, needIndent := needIndent, depth := depth }
  else if c = '{' || c = '[' then
    { dst := dst ++ [c], scan := scan, needIndent := true, depth := depth }
  else if c = ',' then
    { dst := appendNewline (dst ++ [c]) pre indent depth, scan := scan,
      needIndent := needIndent, depth := depth }
  else if c = ':' then
    { dst := dst ++ [c, ' '], scan := scan, needIndent := needIndent, depth := depth }
  else if c = '}' || c = ']' then
    if needIndent then
      { dst := dst ++ [c], scan := scan, needIndent := false, depth := depth }
    else
      { dst := appendNewline dst pre indent (depth - 1) ++ [c], scan := scan,
        needIndent := needIndent, depth := depth - 1 }
  else
    { dst := dst ++ [c], scan := scan, needIndent := needIndent, depth := depth }

/-- The loop `for _, c := range src` of `json.Indent`; it is left at the first
`scanError`. -/
def indentLoop (pre indent : Str) (st : IndentLoop) : Str → IndentLoop
  | [] => st
  | c :: src =>
    let r := Scanner.doStep { st.scan with bytes := st.scan.bytes + 1 } c
    if r.2 = .scanSkipSpace then indentLoop pre indent { st with scan := r.1 } src
    else if r.2 = .scanError then { st with scan := r.1 }
    else indentLoop pre indent (indentEmit pre indent st r.1 r.2 c) src

/-- Model of `json.Indent` writing to an empty buffer: the buffer afterwards, or the
error. -/
def jsonIndent (src pre indent : Str) : Except SyntaxError Str :=
  let st := indentLoop pre indent
    { dst := [], scan := newScanner, needIndent := false, depth := 0 } src
  let (scan, v) := st.scan.eof
  if v = .scanError then
    match scan.err with
    | some e => .error e
    | none => .error (.unexpectedEnd scan.bytes)
  else .ok st.dst

/-! ## prettyString (main.go 88-94) -/

/-- Embedding of `prettyString`: the string and the error (`none` for `nil`). -/
def prettyString (str : Str) : Str × Option SyntaxError :=
  match jsonIndent str [] "    ".toList with
  | .error err => ([], some err)
  | .ok pretty => (pretty, none)

/-! ## strings.Split, strings.TrimRight and godebug/diff -/

/-- Model of `strings.Split(s, "\n")`; `cur` is the part of the current piece read so far.
The result always has at least one piece. -/
def splitFrom (cur : Str) : Str → List Str
  | [] => [cur]
  | c :: t => if c = '\n' then cur :: splitFrom [] t else splitFrom (cur ++ [c]) t

/-- The lines of a text: `strings.Split(s, "\n")`. -/
def splitLines (s : Str) : List Str := splitFrom [] s

/-- Model of `strings.TrimRight(s, "\n")`. -/
def trimRightNewlines (s : Str) : Str := s.rdropWhile (fun c => c = '\n')

/-- The type `diff.Chunk`. -/
structure Chunk where
  Added : List Str
  Deleted : List Str
  Equal : List Str
  deriving DecidableEq

/-- Model of `(*Chunk).empty`. -/
def Chunk.empty (c : Chunk) : Bool :=
  c.Added.length = 0 && c.Deleted.length = 0 && c.Equal.length = 0

/-- The index expression `xs[i]`; `none` is the run-time panic of an index out of range. -/
def index? {α : Type} (xs : List α) (i : Int) : Option α :=
  if i < 0 then none else xs.get? i.toNat

/-- The assignment `xs[i] = v`. -/
def setIndex? (xs : List Int) (i v : Int) : Option (List Int) :=
  if 0 ≤ i ∧ i < xs.length then some (xs.set i.toNat v) else none

/-- The slice expression `xs[i:][:n]` on a slice whose capacity is its length. -/
def slice? {α : Type} (xs : List α) (i n : Int) : Option (List α) :=
  if 0 ≤ i ∧ i ≤ xs.length ∧ 0 ≤ n ∧ n ≤ (xs.length : Int) - i then
    some ((xs.drop i.toNat).take n.toNat)
  else none

/-- The loop `for aidx < alen && bidx < blen && a[aidx] == b[bidx]` of `DiffChunks`; the
first argument bounds the number of tests of the condition. -/
def snake (a b : List Str) : Nat → Int → Int → Option (Int × Int)
  | 0, _, _ => none
  | fuel + 1, aidx, bidx =>
    if aidx < a.length ∧ bidx < b.length then
      match index? a aidx, index? b bidx with
      | some x, some y => if x = y then snake a b fuel (aidx + 1) (bidx + 1) else some (aidx, bidx)
      | _, _ => none
    else some (aidx, bidx)

/-- The choice of the start `aidx` on diagonal `diag` (the `switch` of `DiffChunks`). -/
def startOn (endpoint : List Int) (maxPath editDistance diag : Int) : Option Int :=
  if diag = -editDistance then index? endpoint (maxPath - editDistance + 1)
  else if diag = editDistance then (index? endpoint (maxPath + editDistance - 1)).map (· + 1)
  else
    match index? endpoint (maxPath + diag + 1), index? endpoint (maxPath + diag - 1) with
    | some hi, some lo => if hi > lo then some hi else some (lo + 1)
    | _, _ => none

/-- The loop over the diagonals `diag = -editDistance, -editDistance+2, ...` of one edit
distance; the first argument is the number of diagonals left.  The result is the array
`endpoint` and whether the end of both inputs was found. -/
def diagLoop (a b : List Str) (maxPath editDistance : Int) :
    Nat → Int → List Int → Option (List Int × Bool)
  | 0, _, endpoint => some (endpoint, false)
  | n + 1, diag, endpoint =>
    match startOn endpoint maxPath editDistance diag with
    | none => none
    | some aidx0 =>
      match snake a b (a.length + 1) aidx0 (aidx0 - diag) with
      | none => none
      | some (aidx, bidx) =>
        match setIndex? endpoint (maxPath + diag) aidx with
        | none => none
        | some endpoint1 =>
          if aidx ≥ a.length ∧ bidx ≥ b.length then some (endpoint1, true)
          else diagLoop a b maxPath editDistance n (diag + 2) endpoint1

/-- The loop `dLoop` over the edit distances; the first argument is the number of
distances left to try.  The result is `editDistance` after the loop, and `saved`. -/
def dLoop (a b : List Str) (maxPath : Int) :
    Nat → Int → List Int → List (List Int) → Option (Int × List (List Int))
  | 0, editDistance, _, saved => some (editDistance, saved)
  | n + 1, editDistance, endpoint, saved =>
    match diagLoop a b maxPath editDistance (editDistance.toNat + 1) (-editDistance) endpoint with
    | none => none
    | some (endpoint1, found) =>
      if found then some (editDistance, saved ++ [endpoint1])
      else dLoop a b maxPath n (editDistance + 1) endpoint1 (saved ++ [endpoint1])

/-- One round of the loop `for d := editDistance; d > 0; d--`: the chunk `chunks[d]` and
the new `x, y`. -/
def traceStep (a b : List Str) (maxPath : Int) (endpoint : List Int) (d x y : Int) :
    Option (Chunk × Int × Int) :=
  let diag := x - y
  let insert? : Option Bool :=
    if diag = -d then some true
    else if diag ≠ d then
      match index? endpoint (maxPath + diag - 1), index? endpoint (maxPath + diag + 1) with
      | some lo, some hi => some (decide (lo < hi))
      | _, _ => none
    else some false
  match insert? with
  | none => none
  | some insert =>
    match index? endpoint (maxPath + diag) with
    | none => none
    | some x1 =>
      let kk := if insert then diag + 1 else diag - 1
      match index? endpoint (maxPath + kk) with
      | none => none
      | some x0 =>
        let xM := if insert then x0 else x0 + 1
        let y0 := x0 - kk
        match (if insert then slice? b y0 1 else some []),
              (if insert then some [] else slice? a x0 1),
              (if xM < x1 then slice? a xM (x1 - xM) else some []) with
        | some added, some deleted, some equal =>
          some ({ Added := added, Deleted := deleted, Equal := equal }, x0, y0)
        | _, _, _ => none

/-- The loop `for d := editDistance; d > 0; d--`; the chunks `chunks[d], ...` found so far
are in `acc`. -/
def traceLoop (a b : List Str) (maxPath : Int) (saved : List (List Int)) :
    Nat → Int → Int → List Chunk → Option (Int × Int × List Chunk)
  | 0, x, y, acc => some (x, y, acc)
  | d + 1, x, y, acc =>
    match saved.get? (d + 1) with
    | none => none
    | some endpoint =>
      match traceStep a b maxPath endpoint (d + 1 : Nat) x y with
      | none => none
      | some (c, x0, y0) => traceLoop a b maxPath saved d x0 y0 (c :: acc)

/-- Model of `diff.DiffChunks`; `none` is a run-time panic.  With an edit distance of 0
(the two lists are equal) the result is `nil`, no chunk at all. -/
def DiffChunks (a b : List Str) : Option (List Chunk) :=
  let maxPath : Int := a.length + b.length
  if maxPath = 0 then some []
  else
    match dLoop a b maxPath (a.length + b.length + 1) 0
        (List.replicate (2 * (a.length + b.length) + 1) 0) [] with
    | none => none
    | some (editDistance, saved) =>
      if editDistance = 0 then some []
      else
        match traceLoop a b maxPath saved editDistance.toNat a.length b.length [] with
        | none => none
        | some (x, _, chunks) =>
          match (if x > 0 then slice? a 0 x else some []) with
          | none => none
          | some equal0 =>
            let chunk0 : Chunk := { Added := [], Deleted := [], Equal := equal0 }
            if chunk0.empty then some chunks else some (chunk0 :: chunks)

/-- Model of `diff.Render`. -/
def Render (chunks : List Chunk) : Str :=
  trimRightNewlines (chunks.flatMap (fun c =>
    c.Added.flatMap (fun line => "+".toList ++ line ++ "\n".toList) ++
    c.Deleted.flatMap (fun line => "-".toList ++ line ++ "\n".toList) ++
    c.Equal.flatMap (fun line => " ".toList ++ line ++ "\n".toList)))

/-- Model of `diff.Diff(A, B)`: the line-by-line diff of the changes that make `A` into
`B`. -/
def Diff (A B : Str) : Option Str :=
  (DiffChunks (splitLines A) (splitLines B)).map Render

/-! ## compareResponses (main.go 96-111) -/

/-- Embedding of `compareResponses`; `responses` lists the entries of the map in the order
in which the `range` loop visits them.  The result is the text printed by `fmt.Println`;
`none` is a run-time panic. -/
def compareResponses (responses : List (Str × Str)) : Option Str :=
  let values := responses.map Prod.snd
  match values.get? 0, values.get? 1 with
  | some v0, some v1 =>
    let a := (prettyString v0).1
    let b := (prettyString v1).1
    match Diff b a with
    | none => none
    | some diff =>
      match colorize diff with
      | none => none
      | some colored => some (colored ++ "\n".toList)
  | _, _ => none

/-! ## executeApiCall (main.go 138-161) -/

/-- What `http.Get` hands back when the request went through: the status code, and what
`io.ReadAll(resp.Body)` gives, the body or a read error. -/
structure Response where
  StatusCode : Int
  Body : Except Str Str

/-- The observable actions of the program: writing to standard output, an HTTP GET. -/
inductive Effect where
  | print (text : Str)
  | get (url : Str)
  deriving DecidableEq

/-- How a call ends: with a panic, or by returning. -/
inductive Outcome (α : Type) where
  | panic (value : Str)
  | ret (result : α)
  deriving DecidableEq

/-- Embedding of `executeApiCall`.  `httpGet` stands for the network: the answer of
`http.Get` to a URL, an error or a response.  The result is the sequence of actions and the
outcome, which on return is the pair of the string and the error (`none` for `nil`). -/
def executeApiCall (httpGet : Str → Except Str Response) (host endpoint : Str) :
    List Effect × Outcome (Str × Option Str) :=
  let requestUrl := host ++ endpoint
  match httpGet requestUrl with
  | .error _ =>
    ([.print requestUrl, .get requestUrl],
      .panic ("failed to send request to [%s]".toList ++ requestUrl))
  | .ok resp =>
    let effects := [.print requestUrl, .get requestUrl,
      .print (" [HTTP-".toList ++ (toString resp.StatusCode).toList ++ "]\n".toList)]
    match resp.Body with
    | .error err => (effects, .ret ([], some err))
    | .ok bodyString =>
      if resp.StatusCode = 200 then (effects, .ret (bodyString, none))
      else (effects, .ret ([], some ("API error: ".toList ++ bodyString)))

/-! ## executeApiCompare (main.go 70-86) -/

/-- The type `ApiTest`; each parameter set is a map, given by its entries. -/
structure ApiTest where
  Api : Str
  Params : List (List (Str × Str))

/-- The type `ApiDiffConfig`. -/
structure ApiDiffConfig where
  Hosts : List Str
  Tests : List ApiTest

/-- The map assignment `m[k] = v` on the entries of a map. -/
def mapSet (m : List (Str × Str)) (k v : Str) : List (Str × Str) :=
  if m.any (fun e => e.1 = k) then m.map (fun e => if e.1 = k then (k, v) else e)
  else m ++ [(k, v)]

/-- The loop over the hosts in `executeApiCompare`: the actions, and the map `responses`
after the loop unless a call panicked or returned an error, which panics. -/
def fetchLoop (httpGet : Str → Except Str Response) (endpoint : Str) :
    List Str → List (Str × Str) → List Effect × Outcome (List (Str × Str))
  | [], responses => ([], .ret responses)
  | host :: hosts, responses =>
    match executeApiCall httpGet host endpoint with
    | (effects, .panic v) => (effects, .panic v)
    | (effects, .ret (_, some err)) => (effects, .panic err)
    | (effects, .ret (resp, none)) =>
      let (effects2, r) := fetchLoop httpGet endpoint hosts (mapSet responses host resp)
      (effects ++ effects2, r)

/-- The body of the loop over the parameter sets in `executeApiCompare`.  `order` gives the
order in which a `range` loop visits the entries of a map.  A panic of `compareResponses`
is the run-time error of an index out of range. -/
def compareOne (httpGet : Str → Except Str Response)
    (order : List (Str × Str) → List (Str × Str)) (hosts : List Str) (api : Str)
    (param : List (Str × Str)) : List Effect × Outcome Unit :=
  let endpoint := substituteParams api (order param) ['{'] ['}']
  let banner := Effect.print ("######## Execute api test: ".toList ++ endpoint ++ "\n".toList)
  match fetchLoop httpGet endpoint hosts [] with
  | (effects, .panic v) => (banner :: effects, .panic v)
  | (effects, .ret responses) =>
    match compareResponses (order responses) with
    | none => (banner :: effects, .panic "runtime error: index out of range".toList)
    | some printed => (banner :: effects ++ [.print printed], .ret ())

/-- A loop whose body may panic: the bodies run in order until the first panic. -/
def runAll {α : Type} (body : α → List Effect × Outcome Unit) :
    List α → List Effect × Outcome Unit
  | [] => ([], .ret ())
  | x :: xs =>
    match body x with
    | (effects, .panic v) => (effects, .panic v)
    | (effects, .ret _) =>
      let (effects2, r) := runAll body xs
      (effects ++ effects2, r)

/-- Embedding of `executeApiCompare`. -/
def executeApiCompare (httpGet : Str → Except Str Response)
    (order : List (Str × Str) → List (Str × Str)) (apiDiffConfig : ApiDiffConfig) :
    List Effect × Outcome Unit :=
  runAll (fun apiTest =>
    runAll (fun param => compareOne httpGet order apiDiffConfig.Hosts apiTest.Api param)
      apiTest.Params) apiDiffConfig.Tests

/-! # Notions for the statements and the proofs -/

/-! ## Placeholders and templates -/

/-- The placeholder text `{k}`. -/
def hole (k : Str) : Str := '{' :: (k ++ ['}'])

/-- A string that contains neither `{` nor `}`. -/
def braceFree (s : Str) : Prop := '{' ∉ s ∧ '}' ∉ s

instance (s : Str) : Decidable (braceFree s) := by unfold braceFree; infer_instance

/-- Scan for a `{` that follows an unclosed `{`; the flag tells whether a `{` is open. -/
def unnestedFrom : Bool → Str → Bool
  | _, [] => true
  | opened, c :: t =>
    if c = '{' then !opened && unnestedFrom true t
    else if c = '}' then unnestedFrom false t
    else unnestedFrom opened t

/-- No `{` of the string is followed by another `{` before the next `}`. -/
def unnested (s : Str) : Bool := unnestedFrom false s

/-- A piece of a template: a character other than `{`, or a placeholder `{k}`. -/
inductive Tok where
  | lit (c : Char)
  | ph (k : Str)
  deriving DecidableEq

/-- The text of a piece. -/
def Tok.render : Tok → Str
  | .lit c => [c]
  | .ph k => hole k

/-- The text of a sequence of pieces. -/
def render (ts : List Tok) : Str := ts.flatMap Tok.render

/-- A literal piece is not `{`; a placeholder name has no brace. -/
def Tok.ok : Tok → Prop
  | .lit c => c ≠ '{'
  | .ph k => braceFree k

/-- What may follow the last piece: nothing, or a `{` that is never closed. -/
def tailOk (tail : Str) : Prop := tail = [] ∨ ∃ x, braceFree x ∧ tail = '{' :: x

/-- Substitution on one piece. -/
def substTok (k v : Str) : Tok → List Tok
  | .lit c => [.lit c]
  | .ph k2 => if k2 = k then v.map Tok.lit else [.ph k2]

/-- Substitution on a sequence of pieces. -/
def substToks (k v : Str) (ts : List Tok) : List Tok := ts.flatMap (substTok k v)

/-- All substitutions of a parameter set, on a sequence of pieces. -/
def substAll (ps : List (Str × Str)) (ts : List Tok) : List Tok :=
  ps.foldl (fun ts kv => substToks kv.1 kv.2 ts) ts

/-! ## Rendering of a line -/

/-- The rendering of one line as the renderer's contract words it: a line that begins with
`+` is put between the green marker and the reset marker, one that begins with `-` between
the red marker and the reset marker, any other line is left as it is. -/
def paint : Str → Str
  | '+' :: r => Green ++ ('+' :: r) ++ Reset
  | '-' :: r => Red ++ ('-' :: r) ++ Reset
  | s => s

/-! ## Well-formed bodies and the scanner -/

/-- The loop of `checkValid` of encoding/json: every character is counted and handed to the
step function; the scanner afterwards, and whether the loop was left on a `scanError`. -/
def scanLoop (scan : Scanner) : Str → Scanner × Bool
  | [] => (scan, false)
  | c :: data =>
    let r := Scanner.doStep { scan with bytes := scan.bytes + 1 } c
    if r.2 = .scanError then (r.1, true) else scanLoop r.1 data

/-- Model of `checkValid` of encoding/json on a scanner after `reset`: the error returned,
`none` for `nil`. -/
def checkValid (data : Str) : Option SyntaxError :=
  let r := scanLoop newScanner data
  if r.2 then r.1.err
  else
    let e := r.1.eof
    if e.2 = .scanError then e.1.err else none

/-- A body is well-formed JSON when `json.Valid` accepts it, that is when `checkValid`
returns `nil`. -/
def validJSON (str : Str) : Bool := (checkValid str).isNone

/-- The scanner holds an error whenever its step function is `stateError`. -/
def Scanner.sane (s : Scanner) : Prop := s.step = .error → s.err.isSome = true

/-- The result of a step: the scanner is left sane, and holds an error when the result is
`scanError`. -/
def sound (r : Scanner × ScanCode) : Prop :=
  r.1.sane ∧ (r.2 = .scanError → r.1.err.isSome = true)

/-! ## Chunks, lines and the rounds of the diff -/

/-- What holds of every chunk of a diff of `a` against `b`. -/
def Chunk.from (a b : List Str) (c : Chunk) : Prop :=
  (∀ l ∈ c.Added, l ∈ b) ∧ (∀ l ∈ c.Deleted, l ∈ a) ∧ (∀ l ∈ c.Equal, l ∈ a)

/-- The lines of a rendered diff, each with its mark. -/
def diffLines (chunks : List Chunk) : List Str :=
  chunks.flatMap (fun c =>
    c.Added.map (fun line => '+' :: line) ++ c.Deleted.map (fun line => '-' :: line) ++
      c.Equal.map (fun line => ' ' :: line))

/-- A marked line: a mark other than the newline, and a text without newline. -/
def markedLine (line : Str) : Prop := ∃ c l, line = c :: l ∧ c ≠ '\n' ∧ '\n' ∉ l

/-- The entry of the array `endpoint` for diagonal `k`: `endpoint[maxPath+k]`. -/
def diagAt (maxPath : Int) (endpoint : List Int) (k : Int) : Int :=
  (endpoint.get? (maxPath + k).toNat).getD 0

/-- The start on diagonal `k` at edit distance `d`, from the entries `W` of the neighbouring
diagonals. -/
def startAt (d : Int) (W : Int → Int) (k : Int) : Int :=
  if k = -d then W (k + 1)
  else if k = d then W (k - 1) + 1
  else if W (k + 1) > W (k - 1) then W (k + 1) else W (k - 1) + 1

/-- What holds of the entries `W` of the diagonals `-d, -d+2, ..., d` after the round of
edit distance `d` when the end of both inputs was not found; `d = -1` is the state before
the first round.  `A` and `B` are the lengths of the inputs. -/
structure Good (A B d : Int) (W : Int → Int) : Prop where
  lb : ∀ k, -d ≤ k → k ≤ d → (d - k) % 2 = 0 → d + k ≤ 2 * W k
  nd : ∀ k, -d ≤ k → k ≤ d → (d - k) % 2 = 0 → ¬ (A ≤ W k ∧ B ≤ W k - k)
  over : ∀ k, -d ≤ k - 1 → k + 1 ≤ d → (d - (k + 1)) % 2 = 0 → A < W (k + 1) →
    W (k + 1) - 1 ≤ W (k - 1)
  under : ∀ k, -d ≤ k - 1 → k + 1 ≤ d → (d - (k + 1)) % 2 = 0 → B < W (k - 1) - (k - 1) →
    W (k - 1) + 1 ≤ W (k + 1)
  left : W (-d) ≤ A
  right : 0 ≤ d → W d - d ≤ B
  init : d = -1 → W 1 = 0

/-- What holds of the entry `x` written for diagonal `j` in the round of edit distance
`e`. -/
def Reached (A B e : Int) (W : Int → Int) (j x : Int) : Prop :=
  startAt e W j ≤ x ∧ (x = startAt e W j ∨ (x ≤ A ∧ x - j ≤ B))

/-- The state of the array `endpoint` within the round of edit distance `e`, before
diagonal `j`: the entries of the other parity are still those of the last round, `W`; the
entries of the diagonals below `j` are written. -/
structure Mid (A B M e : Int) (W : Int → Int) (j : Int) (E : List Int) : Prop where
  len : (E.length : Int) = 2 * M + 1
  keep : ∀ k, -M ≤ k → k ≤ M → (e - 1 - k) % 2 = 0 → diagAt M E k = W k
  written : ∀ k, -e ≤ k → k < j → (e - k) % 2 = 0 →
    Reached A B e W k (diagAt M E k) ∧ ¬ (A ≤ diagAt M E k ∧ B ≤ diagAt M E k - k)

/-- Two consecutive saved arrays of rounds that did not find the end. -/
def Round (A B M : Int) (i : Nat) (P S : List Int) : Prop :=
  Good A B i (diagAt M P) ∧ Mid A B M (i + 1) (diagAt M P) (i + 3) S

/-- The saved arrays of the rounds that did not find the end. -/
def Hist (A B M : Int) (saved : List (List Int)) : Prop :=
  ∀ i : Nat, i + 1 < saved.length →
    ∃ P S, saved.get? i = some P ∧ saved.get? (i + 1) = some S ∧ Round A B M i P S

/-- The last saved array, of the round that found the end, on diagonal `A - B`. -/
def Final (A B M top : Int) (savedC : List (List Int)) (final : List Int) : Prop :=
  1 ≤ top → ∃ P, savedC.get? (top - 1).toNat = some P ∧ Good A B (top - 1) (diagAt M P) ∧
    (final.length : Int) = 2 * M + 1 ∧
    (∀ k, -M ≤ k → k ≤ M → (top - 1 - k) % 2 = 0 → diagAt M final k = diagAt M P k) ∧
    -top ≤ A - B ∧ A - B ≤ top ∧ (top - (A - B)) % 2 = 0 ∧
    diagAt M final (A - B) = A ∧ startAt top (diagAt M P) (A - B) ≤ A

/-- The point `(x, y)` at which the backward loop stands before its round `d + 1`. -/
def AtRound (A B M : Int) (saved : List (List Int)) (d : Nat) (x y : Int) : Prop :=
  ∃ S P, saved.get? (d + 1) = some S ∧ saved.get? d = some P ∧ Good A B d (diagAt M P) ∧
    (S.length : Int) = 2 * M + 1 ∧
    (∀ k, -M ≤ k → k ≤ M → ((d : Int) + 1 - 1 - k) % 2 = 0 → diagAt M S k = diagAt M P k) ∧
    -((d : Int) + 1) ≤ x - y ∧ x - y ≤ (d : Int) + 1 ∧ ((d : Int) + 1 - (x - y)) % 2 = 0 ∧
    diagAt M S (x - y) = x ∧ startAt ((d : Int) + 1) (diagAt M P) (x - y) ≤ x ∧
    x ≤ A ∧ y ≤ B

/-! # Properties -/

theorem hole_eq (k : Str) : ['{'] ++ k ++ ['}'] = hole k := by
  simp [hole]

theorem hole_ne_nil (k : Str) : hole k ≠ [] := by simp [hole]

/-! ### Unfolding the scan -/

theorem replaceScan_fuel (old new : Str) (hold : old ≠ []) :
    ∀ (n m : Nat) (s : Str), s.length ≤ n → s.length ≤ m →
      replaceScan old new n s = replaceScan old new m s := by
  intro n
  induction n with
  | zero =>
    intro m s hn hm
    have hs : s = [] := List.length_eq_zero.mp (Nat.le_zero.mp hn)
    subst hs
    cases m with
    | zero => rfl
    | succ m =>
      have : ¬ old <+: ([] : Str) := by
        intro h; exact hold (List.prefix_nil.mp h)
      simp [replaceScan, this]
  | succ n ih =>
    intro m s hn hm
    cases m with
    | zero =>
      have hs : s = [] := List.length_eq_zero.mp (Nat.le_zero.mp hm)
      subst hs
      have : ¬ old <+: ([] : Str) := by
        intro h; exact hold (List.prefix_nil.mp h)
      simp [replaceScan, this]
    | succ m =>
      have holdlen : 0 < old.length := List.length_pos.mpr hold
      by_cases hp : old <+: s
      · have hle : old.length ≤ s.length := hp.length_le
        have hd : (s.drop old.length).length ≤ n := by
          rw [List.length_drop]; omega
        have hd2 : (s.drop old.length).length ≤ m := by
          rw [List.length_drop]; omega
        simp only [replaceScan, hp, if_true]
        rw [ih m _ hd hd2]
      · cases s with
        | nil => simp [replaceScan, hp]
        | cons c t =>
          simp only [replaceScan, hp, if_false]
          simp only [List.length_cons] at hn hm
          rw [ih m t (by omega) (by omega)]

theorem Replace_nil (old new : Str) (hold : old ≠ []) : Replace [] old new = [] := by
  simp [Replace, hold, replaceScan]

theorem Replace_match (old new s : Str) (hold : old ≠ []) (hp : old <+: s) :
    Replace s old new = new ++ Replace (s.drop old.length) old new := by
  have holdlen : 0 < old.length := List.length_pos.mpr hold
  have hle : old.length ≤ s.length := hp.length_le
  simp only [Replace, hold, if_false]
  obtain ⟨k, hk⟩ := Nat.exists_eq_succ_of_ne_zero (by omega : s.length ≠ 0)
  rw [hk]
  simp only [replaceScan, hp, if_true]
  rw [replaceScan_fuel old new hold k (s.drop old.length).length _
    (by rw [List.length_drop]; omega) (le_refl _)]

theorem Replace_cons (old new : Str) (c : Char) (t : Str) (hold : old ≠ [])
    (hp : ¬ old <+: c :: t) : Replace (c :: t) old new = c :: Replace t old new := by
  simp only [Replace, hold, if_false, List.length_cons, replaceScan, hp]

/-! ### Replacing a placeholder -/

theorem hole_inj_append (k k2 r r2 : Str) (hk : '}' ∉ k) (hk2 : '}' ∉ k2)
    (h : k ++ '}' :: r = k2 ++ '}' :: r2) : k = k2 ∧ r = r2 := by
  induction k generalizing k2 with
  | nil =>
    cases k2 with
    | nil => simpa using h
    | cons d k2 =>
      simp only [List.nil_append, List.cons_append, List.cons.injEq] at h
      exact absurd (h.1 ▸ List.mem_cons_self _ _) hk2
  | cons c k ih =>
    cases k2 with
    | nil =>
      simp only [List.nil_append, List.cons_append, List.cons.injEq] at h
      exact absurd (h.1 ▸ List.mem_cons_self _ _) hk
    | cons d k2 =>
      simp only [List.cons_append, List.cons.injEq] at h
      have := ih k2 (fun hm => hk (List.mem_cons_of_mem _ hm))
        (fun hm => hk2 (List.mem_cons_of_mem _ hm)) h.2
      exact ⟨by rw [h.1, this.1], this.2⟩

theorem hole_prefix_hole (k k2 r : Str) (hk : '}' ∉ k) (hk2 : '}' ∉ k2)
    (h : hole k <+: hole k2 ++ r) : k = k2 := by
  obtain ⟨r1, h1⟩ := h
  simp only [hole, List.cons_append, List.append_assoc, List.singleton_append,
    List.cons.injEq, true_and] at h1
  exact (hole_inj_append k k2 r1 r hk hk2 h1).1

theorem not_hole_prefix_cons (k : Str) (c : Char) (t : Str) (hc : c ≠ '{') :
    ¬ hole k <+: c :: t := by
  rintro ⟨r, hr⟩
  simp only [hole, List.cons_append, List.cons.injEq] at hr
  exact hc hr.1.symm

theorem Replace_hole_cons (k v : Str) (c : Char) (t : Str) (hc : c ≠ '{') :
    Replace (c :: t) (hole k) v = c :: Replace t (hole k) v :=
  Replace_cons _ _ _ _ (hole_ne_nil k) (not_hole_prefix_cons k c t hc)

theorem Replace_hole_append (k v x r : Str) (hx : '{' ∉ x) :
    Replace (x ++ r) (hole k) v = x ++ Replace r (hole k) v := by
  induction x with
  | nil => rfl
  | cons c x ih =>
    have hc : c ≠ '{' := fun h => hx (h ▸ List.mem_cons_self _ _)
    rw [List.cons_append, Replace_hole_cons k v c _ hc,
      ih (fun hm => hx (List.mem_cons_of_mem _ hm))]
    rfl

theorem Replace_hole_self (k v r : Str) :
    Replace (hole k ++ r) (hole k) v = v ++ Replace r (hole k) v := by
  rw [Replace_match _ _ _ (hole_ne_nil k) (List.prefix_append _ _), List.drop_left]

theorem Replace_hole_other (k k2 v r : Str) (hk : braceFree k) (hk2 : braceFree k2)
    (hne : k2 ≠ k) : Replace (hole k2 ++ r) (hole k) v = hole k2 ++ Replace r (hole k) v := by
  have hp : ¬ hole k <+: hole k2 ++ r := fun h =>
    hne (hole_prefix_hole k k2 r hk.2 hk2.2 h).symm
  have e : hole k2 ++ r = '{' :: (k2 ++ '}' :: r) := by simp [hole]
  rw [e] at hp ⊢
  rw [Replace_cons _ _ _ _ (hole_ne_nil k) hp, Replace_hole_append k v k2 _ hk2.1,
    Replace_hole_cons k v '}' r (by decide)]
  simp [hole]

theorem Replace_of_not_infix (s old new : Str) (hold : old ≠ []) (h : ¬ old <:+: s) :
    Replace s old new = s := by
  induction s with
  | nil => exact Replace_nil old new hold
  | cons c t ih =>
    have hp : ¬ old <+: c :: t := fun hp => h hp.isInfix
    rw [Replace_cons old new c t hold hp,
      ih (fun hi => h (hi.trans (List.suffix_cons c t).isInfix))]

theorem not_hole_infix_of_noOpen (k x : Str) (hx : '{' ∉ x) : ¬ hole k <:+: x := by
  intro h
  exact hx (h.subset (by simp [hole]))

theorem hole_infix_append_noOpen (k x r : Str) (hx : '{' ∉ x) (h : hole k <:+: x ++ r) :
    hole k <:+: r := by
  induction x with
  | nil => simpa using h
  | cons c x ih =>
    have hc : c ≠ '{' := fun e => hx (e ▸ List.mem_cons_self _ _)
    rw [List.cons_append, List.infix_cons_iff] at h
    rcases h with h | h
    · exact absurd h (not_hole_prefix_cons k c _ hc)
    · exact ih (fun hm => hx (List.mem_cons_of_mem _ hm)) h

/-- Replacing `{k}` keeps an occurrence of a different placeholder `{name}`. -/
theorem hole_infix_Replace (name k v : Str) (hname : braceFree name) (hk : braceFree k)
    (hne : k ≠ name) :
    ∀ (n : Nat) (s : Str), s.length ≤ n → hole name <:+: s →
      hole name <:+: Replace s (hole k) v := by
  intro n
  induction n with
  | zero =>
    intro s hn h
    have hs : s = [] := List.length_eq_zero.mp (Nat.le_zero.mp hn)
    subst hs
    exact absurd (List.infix_nil.mp h) (hole_ne_nil name)
  | succ n ih =>
    intro s hn h
    cases s with
    | nil => exact absurd (List.infix_nil.mp h) (hole_ne_nil name)
    | cons c t =>
      rw [List.infix_cons_iff] at h
      rcases h with h | h
      · obtain ⟨b, hb⟩ := h
        rw [← hb, Replace_hole_other k name v b hk hname (fun e => hne e.symm)]
        exact (List.prefix_append _ _).isInfix
      · by_cases hp : hole k <+: c :: t
        · obtain ⟨rest, hrest⟩ := hp
          have ht : t = k ++ '}' :: rest := by
            simp only [hole, List.cons_append, List.cons.injEq, List.append_assoc,
              List.singleton_append] at hrest
            exact hrest.2.symm
          have h2 : hole name <:+: rest := by
            rw [ht] at h
            have := hole_infix_append_noOpen name k _ hk.1 h
            rw [List.infix_cons_iff] at this
            rcases this with h3 | h3
            · exact absurd h3 (not_hole_prefix_cons name '}' rest (by decide))
            · exact h3
          have hlen : rest.length ≤ n := by
            have : (c :: t).length = (hole k ++ rest).length := by rw [hrest]
            simp only [List.length_cons, List.length_append, hole] at this hn
            omega
          rw [← hrest, Replace_hole_self]
          exact (ih rest hlen h2).trans (List.suffix_append _ _).isInfix
        · rw [Replace_cons _ _ _ _ (hole_ne_nil k) hp]
          simp only [List.length_cons] at hn
          exact (ih t (by omega) h).trans (List.suffix_cons c _).isInfix

theorem render_cons (t : Tok) (ts : List Tok) : render (t :: ts) = t.render ++ render ts := by
  simp [render]

theorem render_append (ts us : List Tok) : render (ts ++ us) = render ts ++ render us := by
  simp [render]

theorem render_map_lit (v : Str) : render (v.map Tok.lit) = v := by
  induction v with
  | nil => rfl
  | cons c v ih => rw [List.map_cons, render_cons, ih]; rfl

theorem substToks_cons (k v : Str) (t : Tok) (ts : List Tok) :
    substToks k v (t :: ts) = substTok k v t ++ substToks k v ts := by
  simp [substToks]

theorem unnested_decomp (s : Str) :
    (unnestedFrom false s = true →
      ∃ ts tail, (∀ t ∈ ts, Tok.ok t) ∧ tailOk tail ∧ s = render ts ++ tail) ∧
    (unnestedFrom true s = true →
      braceFree s ∨ ∃ x ts tail, braceFree x ∧ (∀ t ∈ ts, Tok.ok t) ∧ tailOk tail ∧
        s = x ++ '}' :: (render ts ++ tail)) := by
  induction s with
  | nil =>
    refine ⟨fun _ => ⟨[], [], by simp, Or.inl rfl, rfl⟩, fun _ => Or.inl ?_⟩
    simp [braceFree]
  | cons c t ih =>
    by_cases hc : c = '{'
    · subst hc
      constructor
      · intro h
        simp only [unnestedFrom, if_true, Bool.not_false, Bool.true_and] at h
        rcases ih.2 h with hbf | ⟨x, ts, tail, hx, hts, htail, e⟩
        · exact ⟨[], '{' :: t, by simp, Or.inr ⟨t, hbf, rfl⟩, rfl⟩
        · refine ⟨Tok.ph x :: ts, tail, ?_, htail, ?_⟩
          · intro u hu
            rcases List.mem_cons.mp hu with rfl | hu
            · exact hx
            · exact hts u hu
          · rw [render_cons, e]; simp [Tok.render, hole]
      · intro h
        simp [unnestedFrom] at h
    · by_cases hc2 : c = '}'
      · subst hc2
        have h0 : unnestedFrom false ('}' :: t) = unnestedFrom false t := by
          simp [unnestedFrom]
        have h1 : unnestedFrom true ('}' :: t) = unnestedFrom false t := by
          simp [unnestedFrom]
        constructor
        · intro h
          rw [h0] at h
          obtain ⟨ts, tail, hts, htail, e⟩ := ih.1 h
          refine ⟨Tok.lit '}' :: ts, tail, ?_, htail, ?_⟩
          · intro u hu
            rcases List.mem_cons.mp hu with rfl | hu
            · exact hc
            · exact hts u hu
          · rw [render_cons, e]; rfl
        · intro h
          rw [h1] at h
          obtain ⟨ts, tail, hts, htail, e⟩ := ih.1 h
          exact Or.inr ⟨[], ts, tail, by simp [braceFree], hts, htail, by rw [e]; rfl⟩
      · have h0 : ∀ b, unnestedFrom b (c :: t) = unnestedFrom b t := by
          intro b; simp [unnestedFrom, hc, hc2]
        constructor
        · intro h
          rw [h0] at h
          obtain ⟨ts, tail, hts, htail, e⟩ := ih.1 h
          refine ⟨Tok.lit c :: ts, tail, ?_, htail, ?_⟩
          · intro u hu
            rcases List.mem_cons.mp hu with rfl | hu
            · exact hc
            · exact hts u hu
          · rw [render_cons, e]; rfl
        · intro h
          rw [h0] at h
          rcases ih.2 h with hbf | ⟨x, ts, tail, hx, hts, htail, e⟩
          · left
            refine ⟨?_, ?_⟩
            · intro hm
              rcases List.mem_cons.mp hm with e | hm
              · exact hc e.symm
              · exact hbf.1 hm
            · intro hm
              rcases List.mem_cons.mp hm with e | hm
              · exact hc2 e.symm
              · exact hbf.2 hm
          · right
            refine ⟨c :: x, ts, tail, ⟨?_, ?_⟩, hts, htail, by rw [e]; rfl⟩
            · intro hm
              rcases List.mem_cons.mp hm with e | hm
              · exact hc e.symm
              · exact hx.1 hm
            · intro hm
              rcases List.mem_cons.mp hm with e | hm
              · exact hc2 e.symm
              · exact hx.2 hm

theorem not_hole_infix_tail (k tail : Str) (ht : tailOk tail) : ¬ hole k <:+: tail := by
  rcases ht with rfl | ⟨x, hx, rfl⟩
  · intro h; exact hole_ne_nil k (List.infix_nil.mp h)
  · intro h
    rw [List.infix_cons_iff] at h
    rcases h with h | h
    · obtain ⟨r, hr⟩ := h
      simp only [hole, List.cons_append, List.append_assoc, List.singleton_append,
        List.cons.injEq, true_and] at hr
      exact hx.2 (hr ▸ by simp)
    · exact not_hole_infix_of_noOpen k x hx.1 h

/-- On a sequence of pieces, `strings.Replace` of `{k}` acts piece by piece. -/
theorem Replace_render (k v : Str) (hk : braceFree k) (ts : List Tok)
    (hts : ∀ t ∈ ts, Tok.ok t) (rest : Str) :
    Replace (render ts ++ rest) (hole k) v =
      render (substToks k v ts) ++ Replace rest (hole k) v := by
  induction ts with
  | nil => rfl
  | cons t ts ih =>
    have ih2 := ih (fun u hu => hts u (List.mem_cons_of_mem _ hu))
    have ht := hts t (List.mem_cons_self _ _)
    rw [render_cons, substToks_cons, render_append, List.append_assoc, List.append_assoc]
    cases t with
    | lit c =>
      show Replace (c :: (render ts ++ rest)) (hole k) v = _
      rw [Replace_hole_cons k v c _ ht, ih2]
      rfl
    | ph k2 =>
      show Replace (hole k2 ++ (render ts ++ rest)) (hole k) v = _
      by_cases e : k2 = k
      · subst e
        rw [Replace_hole_self, ih2]
        simp [substTok, render_map_lit]
      · rw [Replace_hole_other k k2 v _ hk ht e, ih2]
        simp [substTok, e, render, Tok.render]

theorem substToks_ok (k v : Str) (hv : '{' ∉ v) (ts : List Tok) (hts : ∀ t ∈ ts, Tok.ok t) :
    ∀ t ∈ substToks k v ts, Tok.ok t := by
  intro t ht
  simp only [substToks, List.mem_flatMap] at ht
  obtain ⟨u, hu, htu⟩ := ht
  cases u with
  | lit c =>
    simp only [substTok, List.mem_singleton] at htu
    subst htu
    exact hts _ hu
  | ph k2 =>
    simp only [substTok] at htu
    split at htu
    · simp only [List.mem_map] at htu
      obtain ⟨c, hc, rfl⟩ := htu
      exact fun e => hv (e ▸ hc)
    · simp only [List.mem_singleton] at htu
      subst htu
      exact hts _ hu

theorem mem_substToks_ph (k v j : Str) (ts : List Tok) :
    Tok.ph j ∈ substToks k v ts ↔ j ≠ k ∧ Tok.ph j ∈ ts := by
  simp only [substToks, List.mem_flatMap]
  constructor
  · rintro ⟨u, hu, hj⟩
    cases u with
    | lit c => simp [substTok] at hj
    | ph k2 =>
      simp only [substTok] at hj
      split at hj
      · simp at hj
      · rename_i hne
        simp only [List.mem_singleton, Tok.ph.injEq] at hj
        subst hj
        exact ⟨hne, hu⟩
  · rintro ⟨hne, hj⟩
    exact ⟨Tok.ph j, hj, by simp [substTok, hne]⟩

theorem substToks_comm (k v k2 v2 : Str) (hne : k ≠ k2) (ts : List Tok) :
    substToks k v (substToks k2 v2 ts) = substToks k2 v2 (substToks k v ts) := by
  have lit_fix : ∀ (a w x : Str), substToks a w (x.map Tok.lit) = x.map Tok.lit := by
    intro a w x
    induction x with
    | nil => rfl
    | cons c x ih => rw [List.map_cons, substToks_cons, ih]; rfl
  induction ts with
  | nil => rfl
  | cons t ts ih =>
    have app : ∀ (a w : Str) (xs ys : List Tok),
        substToks a w (xs ++ ys) = substToks a w xs ++ substToks a w ys := by
      intro a w xs ys; simp [substToks]
    rw [substToks_cons, substToks_cons, app, app, ih]
    congr 1
    cases t with
    | lit c => rfl
    | ph j =>
      by_cases e1 : j = k
      · subst e1
        have h1 : substTok k2 v2 (Tok.ph j) = [Tok.ph j] := by simp [substTok, hne]
        have h2 : substTok j v (Tok.ph j) = v.map Tok.lit := by simp [substTok]
        rw [h1, h2, lit_fix]
        simp [substToks, h2]
      · by_cases e2 : j = k2
        · subst e2
          have h1 : substTok k v (Tok.ph j) = [Tok.ph j] := by simp [substTok, e1]
          have h2 : substTok j v2 (Tok.ph j) = v2.map Tok.lit := by simp [substTok]
          rw [h1, h2, lit_fix]
          simp [substToks, h2]
        · simp [substTok, e1, e2, substToks]

/-- An occurrence of `{j}` in the text of a sequence of pieces is one of the pieces. -/
theorem ph_mem_of_infix (j : Str) (hj : braceFree j) (tail : Str) (htail : tailOk tail)
    (ts : List Tok) (hts : ∀ t ∈ ts, Tok.ok t) (h : hole j <:+: render ts ++ tail) :
    Tok.ph j ∈ ts := by
  induction ts with
  | nil => exact absurd h (not_hole_infix_tail j tail htail)
  | cons t ts ih =>
    have ih2 := ih (fun u hu => hts u (List.mem_cons_of_mem _ hu))
    have ht := hts t (List.mem_cons_self _ _)
    rw [render_cons, List.append_assoc] at h
    cases t with
    | lit c =>
      change hole j <:+: c :: (render ts ++ tail) at h
      rw [List.infix_cons_iff] at h
      rcases h with h | h
      · exact absurd h (not_hole_prefix_cons j c _ ht)
      · exact List.mem_cons_of_mem _ (ih2 h)
    | ph k2 =>
      change hole j <:+: hole k2 ++ (render ts ++ tail) at h
      have e : hole k2 ++ (render ts ++ tail) = '{' :: (k2 ++ '}' :: (render ts ++ tail)) := by
        simp [hole]
      rw [e, List.infix_cons_iff] at h
      rcases h with h | h
      · rw [← e] at h
        have := hole_prefix_hole j k2 _ hj.2 ht.2 h
        subst this
        exact List.mem_cons_self _ _
      · have h2 := hole_infix_append_noOpen j k2 _ ht.1 h
        rw [List.infix_cons_iff] at h2
        rcases h2 with h3 | h3
        · exact absurd h3 (not_hole_prefix_cons j '}' _ (by decide))
        · exact List.mem_cons_of_mem _ (ih2 h3)

theorem substituteParams_cons (s : Str) (kv : Str × Str) (ps : List (Str × Str)) :
    substituteParams s (kv :: ps) ['{'] ['}'] =
      substituteParams (Replace s (hole kv.1) kv.2) ps ['{'] ['}'] := by
  simp only [substituteParams, List.foldl_cons, hole_eq]

theorem substituteParams_render (tail : Str) (htail : tailOk tail) (ps : List (Str × Str))
    (hps : ∀ kv ∈ ps, braceFree kv.1 ∧ '{' ∉ kv.2) (ts : List Tok)
    (hts : ∀ t ∈ ts, Tok.ok t) :
    substituteParams (render ts ++ tail) ps ['{'] ['}'] =
        render (substAll ps ts) ++ tail ∧
      ∀ t ∈ substAll ps ts, Tok.ok t := by
  induction ps generalizing ts with
  | nil => exact ⟨rfl, hts⟩
  | cons kv ps ih =>
    have hkv := hps kv (List.mem_cons_self _ _)
    have hrest : Replace tail (hole kv.1) kv.2 = tail :=
      Replace_of_not_infix _ _ _ (hole_ne_nil _) (not_hole_infix_tail _ _ htail)
    rw [substituteParams_cons, Replace_render kv.1 kv.2 hkv.1 ts hts tail, hrest]
    exact ih (fun x hx => hps x (List.mem_cons_of_mem _ hx)) _
      (substToks_ok kv.1 kv.2 hkv.2 ts hts)

theorem mem_substAll_ph (j : Str) (ps : List (Str × Str)) (ts : List Tok) :
    Tok.ph j ∈ substAll ps ts ↔ (∀ kv ∈ ps, j ≠ kv.1) ∧ Tok.ph j ∈ ts := by
  induction ps generalizing ts with
  | nil => simp [substAll]
  | cons kv ps ih =>
    have : substAll (kv :: ps) ts = substAll ps (substToks kv.1 kv.2 ts) := rfl
    rw [this, ih, mem_substToks_ph]
    simp only [List.mem_cons, forall_eq_or_imp]
    tauto

theorem substAll_perm (p q : List (Str × Str)) (hperm : p.Perm q)
    (hnodup : (p.map Prod.fst).Nodup) (ts : List Tok) : substAll p ts = substAll q ts := by
  apply List.Perm.foldl_eq' hperm
  intro x hx y hy z
  by_cases e : x = y
  · rw [e]
  · have hne : x.1 ≠ y.1 := fun h => e (List.inj_on_of_nodup_map hnodup hx hy h)
    exact substToks_comm y.1 y.2 x.1 x.2 (fun h => hne h.symm) z

/-! ## Claims on substituteParams -/

/-- C1 (counterexample): with pairwise distinct, brace-free keys none of which is a substring
of another, the result still depends on the order of the visits: when a value is itself a
placeholder (`{a}` with a ↦ `{b}`, b ↦ `x`), and when the template nests braces
(`{{a}b}` with a ↦ empty, b ↦ `x`). -/
theorem substituteParams_order_counterexample :
    (substituteParams "{a}".toList [("a".toList, "{b}".toList), ("b".toList, "x".toList)]
        ['{'] ['}'] = "x".toList ∧
      substituteParams "{a}".toList [("b".toList, "x".toList), ("a".toList, "{b}".toList)]
        ['{'] ['}'] = "{b}".toList) ∧
    (substituteParams "{{a}b}".toList [("a".toList, []), ("b".toList, "x".toList)]
        ['{'] ['}'] = "x".toList ∧
      substituteParams "{{a}b}".toList [("b".toList, "x".toList), ("a".toList, [])]
        ['{'] ['}'] = "{b}".toList) ∧
    braceFree "a".toList ∧ braceFree "b".toList ∧
    ¬ "a".toList <:+: "b".toList ∧ ¬ "b".toList <:+: "a".toList := by
  decide

/-- C1 (amended): for a template without nested braces and a parameter set whose keys are
pairwise distinct and brace-free and whose values contain no `{`, every order of visiting
the entries gives the same string. -/
theorem substituteParams_order (template : Str) (p q : List (Str × Str))
    (hperm : p.Perm q) (hnodup : (p.map Prod.fst).Nodup)
    (hflat : unnested template = true)
    (hkv : ∀ kv ∈ p, braceFree kv.1 ∧ '{' ∉ kv.2) :
    substituteParams template p ['{'] ['}'] =
      substituteParams template q ['{'] ['}'] := by
  obtain ⟨ts, tail, hts, htail, e⟩ := (unnested_decomp template).1 hflat
  have hq : ∀ kv ∈ q, braceFree kv.1 ∧ '{' ∉ kv.2 := fun kv h => hkv kv (hperm.mem_iff.mpr h)
  rw [e, (substituteParams_render tail htail p hkv ts hts).1,
    (substituteParams_render tail htail q hq ts hts).1, substAll_perm p q hperm hnodup]

theorem substituteParams_order_witness :
    substituteParams "/u/{id}/{tab}".toList
        [("id".toList, "7".toList), ("tab".toList, "posts".toList)] ['{'] ['}'] =
      substituteParams "/u/{id}/{tab}".toList
        [("tab".toList, "posts".toList), ("id".toList, "7".toList)] ['{'] ['}'] :=
  substituteParams_order _ _ _ (List.Perm.swap _ _ _) (by decide) (by decide) (by decide)

/-- C2 (counterexample): the template `{{a}a}` with a ↦ empty resolves to `{a}`, which
still contains the placeholder of the supplied key. -/
theorem substituteParams_resolved_counterexample :
    braceFree "a".toList ∧ braceFree ([] : Str) ∧
    ['{'] ++ "a".toList ++ ['}'] <:+:
      substituteParams "{{a}a}".toList [("a".toList, [])] ['{'] ['}'] := by
  decide

/-- C2 (amended): for a template without nested braces and a parameter set whose keys and
values contain neither `{` nor `}`, the result of `substituteParams` contains no occurrence
of `{k}` for any key `k`, in whatever order the entries are visited. -/
theorem substituteParams_resolved (template : Str) (params : List (Str × Str))
    (hflat : unnested template = true)
    (hkv : ∀ kv ∈ params, braceFree kv.1 ∧ braceFree kv.2) :
    ∀ kv ∈ params, ¬ ['{'] ++ kv.1 ++ ['}'] <:+:
      substituteParams template params ['{'] ['}'] := by
  intro kv hmem hocc
  obtain ⟨ts, tail, hts, htail, e⟩ := (unnested_decomp template).1 hflat
  have hkv2 : ∀ kv ∈ params, braceFree kv.1 ∧ '{' ∉ kv.2 := fun x hx =>
    ⟨(hkv x hx).1, (hkv x hx).2.1⟩
  obtain ⟨h1, h2⟩ := substituteParams_render tail htail params hkv2 ts hts
  rw [hole_eq, e, h1] at hocc
  have := ph_mem_of_infix kv.1 (hkv kv hmem).1 tail htail _ h2 hocc
  exact ((mem_substAll_ph kv.1 params ts).mp this).1 kv hmem rfl

theorem substituteParams_resolved_witness :
    (¬ ['{'] ++ "id".toList ++ ['}'] <:+:
        substituteParams "/u/{id}/{tab}/{x}".toList
          [("id".toList, "7".toList), ("tab".toList, "posts".toList)] ['{'] ['}']) ∧
    (¬ ['{'] ++ "tab".toList ++ ['}'] <:+:
        substituteParams "/u/{id}/{tab}/{x}".toList
          [("id".toList, "7".toList), ("tab".toList, "posts".toList)] ['{'] ['}']) :=
  ⟨substituteParams_resolved _ _ (by decide) (by decide) ("id".toList, "7".toList) (by decide),
   substituteParams_resolved _ _ (by decide) (by decide) ("tab".toList, "posts".toList)
     (by decide)⟩

/-- C3: a placeholder `{name}` (name brace-free) that occurs in the template and whose name
is not among the brace-free keys still occurs in the result of `substituteParams`, whatever
the values and the order of the visits. -/
theorem substituteParams_unmatched (template name : Str) (params : List (Str × Str))
    (hname : braceFree name)
    (hkeys : ∀ kv ∈ params, braceFree kv.1 ∧ kv.1 ≠ name)
    (hocc : ['{'] ++ name ++ ['}'] <:+: template) :
    ['{'] ++ name ++ ['}'] <:+:
      substituteParams template params ['{'] ['}'] := by
  rw [hole_eq] at hocc ⊢
  induction params generalizing template with
  | nil => exact hocc
  | cons kv ps ih =>
    have hkv := hkeys kv (List.mem_cons_self _ _)
    rw [substituteParams_cons]
    exact ih _ (fun x hx => hkeys x (List.mem_cons_of_mem _ hx))
      (hole_infix_Replace name kv.1 kv.2 hname hkv.1 hkv.2 _ _ (le_refl _) hocc)

theorem substituteParams_unmatched_witness :
    ['{'] ++ "tab".toList ++ ['}'] <:+:
      substituteParams "/u/{id}/{tab}".toList [("id".toList, "{tab}7".toList)]
        ['{'] ['}'] :=
  substituteParams_unmatched _ _ _ (by decide) (by decide) (by decide)

/-- C4: `substituteParams` is the identity on a string that contains no `{k}` for any key
`k` of the parameter set, in particular on a string without `{`; hence a result that
contains no such occurrence is a fixed point of the substitution. -/
theorem substituteParams_identity (s t : Str) (p : List (Str × Str)) :
    ((∀ kv ∈ p, ¬ ['{'] ++ kv.1 ++ ['}'] <:+: s) →
      substituteParams s p ['{'] ['}'] = s) ∧
    ('{' ∉ s → substituteParams s p ['{'] ['}'] = s) ∧
    ((∀ kv ∈ p, ¬ ['{'] ++ kv.1 ++ ['}'] <:+:
        substituteParams t p ['{'] ['}']) →
      substituteParams (substituteParams t p ['{'] ['}']) p ['{'] ['}'] =
        substituteParams t p ['{'] ['}']) := by
  have main : ∀ (q : List (Str × Str)) (u : Str),
      (∀ kv ∈ q, ¬ ['{'] ++ kv.1 ++ ['}'] <:+: u) →
        substituteParams u q ['{'] ['}'] = u := by
    intro q
    induction q with
    | nil => intro u _; rfl
    | cons kv ps ih =>
      intro u h
      have h1 := h kv (List.mem_cons_self _ _)
      rw [hole_eq] at h1
      rw [substituteParams_cons, Replace_of_not_infix _ _ _ (hole_ne_nil _) h1]
      exact ih u (fun x hx => h x (List.mem_cons_of_mem _ hx))
  refine ⟨main p s, fun hs => main p s (fun kv _ => ?_), main p _⟩
  rw [hole_eq]
  exact not_hole_infix_of_noOpen kv.1 s hs

theorem substituteParams_identity_witness :
    substituteParams "/u/7".toList [("id".toList, "7".toList)] ['{'] ['}'] =
        "/u/7".toList ∧
      substituteParams "/u/{x}".toList [("id".toList, "7".toList)] ['{'] ['}'] =
        "/u/{x}".toList ∧
      substituteParams
          (substituteParams "/u/{id}".toList [("id".toList, "7".toList)] ['{'] ['}'])
          [("id".toList, "7".toList)] ['{'] ['}'] =
        substituteParams "/u/{id}".toList [("id".toList, "7".toList)] ['{'] ['}'] :=
  ⟨(substituteParams_identity "/u/7".toList [] _).2.1 (by decide),
   (substituteParams_identity "/u/{x}".toList [] _).1 (by decide),
   (substituteParams_identity [] "/u/{id}".toList _).2.2 (by decide)⟩

/-! ### Lines of the scanner -/

theorem byteLen_append (a b : Str) : byteLen (a ++ b) = byteLen a + byteLen b := by
  simp [byteLen]

theorem byteLen_cons (c : Char) (t : Str) : byteLen (c :: t) = c.utf8Size + byteLen t := by
  simp [byteLen]

theorem scanFrom_line (l : Str) (hl : '\n' ∉ l) (rest : Str) :
    ∀ cur : Str, byteLen (cur ++ l) < MaxScanTokenSize →
      scanFrom cur (l ++ '\n' :: rest) = dropCR (cur ++ l) :: scanFrom [] rest := by
  induction l with
  | nil => intro cur _; simp [scanFrom]
  | cons c l ih =>
    intro cur hlen
    have hc : c ≠ '\n' := fun e => hl (e ▸ List.mem_cons_self _ _)
    have hlen2 : byteLen ((cur ++ [c]) ++ l) < MaxScanTokenSize := by
      simpa using hlen
    have hsmall : ¬ MaxScanTokenSize ≤ byteLen cur + c.utf8Size := by
      rw [byteLen_append, byteLen_cons] at hlen
      omega
    rw [List.cons_append, scanFrom, if_neg hc, if_neg hsmall,
      ih (fun hm => hl (List.mem_cons_of_mem _ hm)) (cur ++ [c]) hlen2]
    simp

theorem scanFrom_last (l : Str) (hl : '\n' ∉ l) :
    ∀ cur : Str, byteLen (cur ++ l) < MaxScanTokenSize → cur ++ l ≠ [] →
      scanFrom cur l = [dropCR (cur ++ l)] := by
  induction l with
  | nil =>
    intro cur _ hne
    have : cur ≠ [] := by simpa using hne
    simp [scanFrom, this]
  | cons c l ih =>
    intro cur hlen _
    have hc : c ≠ '\n' := fun e => hl (e ▸ List.mem_cons_self _ _)
    have hlen2 : byteLen ((cur ++ [c]) ++ l) < MaxScanTokenSize := by
      simpa using hlen
    have hsmall : ¬ MaxScanTokenSize ≤ byteLen cur + c.utf8Size := by
      rw [byteLen_append, byteLen_cons] at hlen
      omega
    rw [scanFrom, if_neg hc, if_neg hsmall,
      ih (fun hm => hl (List.mem_cons_of_mem _ hm)) (cur ++ [c]) hlen2 (by simp)]
    simp

theorem scanLines_terminated (ls : List Str)
    (h : ∀ l ∈ ls, '\n' ∉ l ∧ byteLen l < MaxScanTokenSize) (rest : Str) :
    scanLines (ls.flatMap (fun l => l ++ "\n".toList) ++ rest) =
      ls.map dropCR ++ scanLines rest := by
  induction ls with
  | nil => rfl
  | cons l ls ih =>
    have hl := h l (List.mem_cons_self _ _)
    have e : (l :: ls).flatMap (fun l => l ++ "\n".toList) ++ rest =
        l ++ '\n' :: (ls.flatMap (fun l => l ++ "\n".toList) ++ rest) := by
      simp
    have ih2 := ih (fun x hx => h x (List.mem_cons_of_mem _ hx))
    unfold scanLines at ih2 ⊢
    rw [e, scanFrom_line l hl.1 _ [] (by simpa using hl.2), ih2]
    simp

theorem take_one_eq (s : Str) (c : Char) : s.take 1 = [c] ↔ ∃ r, s = c :: r := by
  cases s with
  | nil => simp
  | cons d r => simp

theorem colorizeLoop_step (b s : Str) (rest : List Str) (hs : s ≠ []) :
    colorizeLoop b (s :: rest) = colorizeLoop (b ++ paint s ++ "\n".toList) rest := by
  have hp : (if s.take 1 = "+".toList then inGreen s
      else if s.take 1 = "-".toList then inRed s else s) = paint s := by
    cases s with
    | nil => exact absurd rfl hs
    | cons d r =>
      by_cases h1 : d = '+'
      · subst h1; simp [paint, inGreen]
      · by_cases h2 : d = '-'
        · subst h2; simp [paint, inRed]
        · have e : paint (d :: r) = d :: r := by
            unfold paint
            split
            · rename_i heq; exact absurd (List.cons.inj heq).1 h1
            · rename_i heq; exact absurd (List.cons.inj heq).1 h2
            · rfl
          rw [e]
          simp [h1, h2]
  simp only [colorizeLoop, if_neg hs, hp]

theorem colorizeLoop_all (ls : List Str) (h : ∀ l ∈ ls, l ≠ []) :
    ∀ b : Str, colorizeLoop b ls = some (b ++ ls.flatMap (fun l => paint l ++ "\n".toList)) := by
  induction ls with
  | nil => intro b; simp [colorizeLoop]
  | cons l ls ih =>
    intro b
    rw [colorizeLoop_step b l ls (h l (List.mem_cons_self _ _)),
      ih (fun x hx => h x (List.mem_cons_of_mem _ hx))]
    simp

/-! ## Claim on colorize -/

theorem scanFrom_long (n : Nat) :
    ∀ cur : Str, byteLen cur < MaxScanTokenSize → MaxScanTokenSize ≤ byteLen cur + n →
      scanFrom cur (List.replicate n 'a') = [] := by
  induction n with
  | zero => intro cur h1 h2; omega
  | succ n ih =>
    intro cur h1 h2
    have h1b : ('a' : Char).utf8Size = 1 := by decide
    rw [List.replicate_succ, scanFrom, if_neg (by decide)]
    by_cases hc : MaxScanTokenSize ≤ byteLen cur + ('a' : Char).utf8Size
    · rw [if_pos hc]
    · rw [if_neg hc]
      have hb : byteLen (cur ++ ['a']) = byteLen cur + 1 := by
        rw [byteLen_append]
        rfl
      apply ih
      · rw [hb]; omega
      · rw [hb]; omega

/-- C5 (counterexample): the scanner removes a carriage return that ends a line, so the
non-empty line `+a\r` is not rendered as green marker, line, reset marker; the non-empty
line `\r` is scanned as the empty string, whose slice `s[0:1]` panics; and a text of one
line of 65536 letters, which does not fit the scanner's buffer, is rendered as nothing. -/
theorem colorize_lines_counterexample :
    colorize "+a\r".toList = some (Green ++ "+a".toList ++ Reset ++ "\n".toList) ∧
    colorize "+a\r".toList ≠ some (Green ++ "+a\r".toList ++ Reset ++ "\n".toList) ∧
    colorize "\r".toList = none ∧
    colorize (List.replicate 65536 'a') = some [] := by
  refine ⟨by decide, by decide, by decide, ?_⟩
  unfold colorize scanLines
  rw [scanFrom_long 65536 [] (by decide) (by decide)]
  rfl

/-- C5 (amended): for a diff text made of the lines `ls`, each ended by a newline, and
possibly one more line `last` without a newline, where every line is shorter than the
scanner's buffer (64 KiB) and is non-empty once one trailing carriage return is removed,
`colorize` returns, in order, one newline-terminated line per input line: the line without
its trailing carriage return, put between the green and the reset marker when it begins
with `+`, between the red and the reset marker when it begins with `-`, unchanged
otherwise.  The green and red markers are non-empty and differ. -/
theorem colorize_lines (ls : List Str) (last : Str)
    (hls : ∀ l ∈ ls, '\n' ∉ l ∧ byteLen l < MaxScanTokenSize ∧ dropCR l ≠ [])
    (hlast : '\n' ∉ last ∧ byteLen last < MaxScanTokenSize ∧ dropCR last ≠ []) :
    colorize (ls.flatMap (fun l => l ++ "\n".toList)) =
        some ((ls.map dropCR).flatMap (fun l => paint l ++ "\n".toList)) ∧
      colorize (ls.flatMap (fun l => l ++ "\n".toList) ++ last) =
        some (((ls ++ [last]).map dropCR).flatMap (fun l => paint l ++ "\n".toList)) ∧
      Green ≠ [] ∧ Red ≠ [] ∧ Green ≠ Red := by
  have h1 : ∀ l ∈ ls, '\n' ∉ l ∧ byteLen l < MaxScanTokenSize := fun l hl =>
    ⟨(hls l hl).1, (hls l hl).2.1⟩
  have hne : ∀ l ∈ ls.map dropCR, l ≠ [] := by
    intro l hl
    obtain ⟨x, hx, rfl⟩ := List.mem_map.mp hl
    exact (hls x hx).2.2
  have hlast_ne : last ≠ [] := by
    intro e
    apply hlast.2.2
    rw [e]
    rfl
  refine ⟨?_, ?_, by decide, by decide, by decide⟩
  · have := scanLines_terminated ls h1 []
    rw [List.append_nil] at this
    unfold colorize
    rw [this, show scanLines [] = [] from rfl, List.append_nil, colorizeLoop_all _ hne]
    rfl
  · have hs : scanLines last = [dropCR last] :=
      scanFrom_last last hlast.1 [] (by simpa using hlast.2.1) (by simpa using hlast_ne)
    have hne2 : ∀ l ∈ (ls ++ [last]).map dropCR, l ≠ [] := by
      intro l hl
      obtain ⟨x, hx, rfl⟩ := List.mem_map.mp hl
      rcases List.mem_append.mp hx with hx | hx
      · exact (hls x hx).2.2
      · rw [List.mem_singleton.mp hx]
        exact hlast.2.2
    unfold colorize
    rw [scanLines_terminated ls h1 last, hs, ← List.map_singleton, ← List.map_append,
      colorizeLoop_all _ hne2]
    rfl

theorem colorize_lines_witness :
    colorize (["+a".toList, "-b".toList].flatMap (fun l => l ++ "\n".toList)) =
        some ((["+a".toList, "-b".toList].map dropCR).flatMap
          (fun l => paint l ++ "\n".toList)) ∧
      colorize (["+a".toList, "-b".toList].flatMap (fun l => l ++ "\n".toList) ++ " c\r".toList) =
        some (((["+a".toList, "-b".toList] ++ [" c\r".toList]).map dropCR).flatMap
          (fun l => paint l ++ "\n".toList)) ∧
      Green ≠ [] ∧ Red ≠ [] ∧ Green ≠ Red :=
  colorize_lines _ _ (by decide) (by decide)

/-! ## Claim on executeApiCall -/

/-- C8: when `http.Get` answers the URL `host + endpoint` with status code `c` and the body
`b` is read in full, `executeApiCall` returns `(b, nil)` exactly when `c = 200`, and for
every other `c` it returns the empty string with the error `API error: ` followed by `b`;
the one URL it requests is `host + endpoint`. -/
theorem executeApiCall_status (httpGet : Str → Except Str Response) (host endpoint b : Str)
    (c : Int) (h : httpGet (host ++ endpoint) = .ok { StatusCode := c, Body := .ok b }) :
    ((executeApiCall httpGet host endpoint).2 = .ret (b, none) ↔ c = 200) ∧
    (c ≠ 200 → (executeApiCall httpGet host endpoint).2 =
      .ret ([], some ("API error: ".toList ++ b))) ∧
    (∀ url, Effect.get url ∈ (executeApiCall httpGet host endpoint).1 ↔
      url = host ++ endpoint) := by
  by_cases hc : c = 200
  · subst hc
    simp [executeApiCall, h, eq_comm]
  · simp [executeApiCall, h, hc, eq_comm]

theorem executeApiCall_status_witness :
    ((executeApiCall (fun _ => .ok { StatusCode := 201, Body := .ok "made".toList })
        "http://a".toList "/users/7".toList).2 = .ret ("made".toList, none) ↔
      (201 : Int) = 200) ∧
    ((201 : Int) ≠ 200 →
      (executeApiCall (fun _ => .ok { StatusCode := 201, Body := .ok "made".toList })
        "http://a".toList "/users/7".toList).2 =
      .ret ([], some ("API error: ".toList ++ "made".toList))) ∧
    (∀ url, Effect.get url ∈
        (executeApiCall (fun _ => .ok { StatusCode := 201, Body := .ok "made".toList })
          "http://a".toList "/users/7".toList).1 ↔
      url = "http://a".toList ++ "/users/7".toList) :=
  executeApiCall_status _ _ _ _ _ rfl

/-! ## Claim on the responses handed to compareResponses -/

theorem mem_keys_mapSet (m : List (Str × Str)) (k v x : Str) :
    x ∈ (mapSet m k v).map Prod.fst ↔ x = k ∨ x ∈ m.map Prod.fst := by
  unfold mapSet
  split
  · rename_i hany
    simp only [List.any_eq_true, decide_eq_true_eq] at hany
    obtain ⟨e, he, hek⟩ := hany
    simp only [List.mem_map, List.map_map]
    constructor
    · rintro ⟨a, ha, rfl⟩
      simp only [Function.comp]
      by_cases hak : a.1 = k
      · left; simp [hak]
      · right; exact ⟨a, ha, by simp [hak]⟩
    · rintro (rfl | ⟨a, ha, rfl⟩)
      · exact ⟨e, he, by simp [hek]⟩
      · refine ⟨a, ha, ?_⟩
        simp only [Function.comp]
        by_cases hak : a.1 = k
        · simp [hak]
        · simp [hak]
  · simp only [List.map_append, List.mem_append, List.map_cons, List.map_nil,
      List.mem_singleton]
    tauto

theorem fetchLoop_keys (httpGet : Str → Except Str Response) (endpoint : Str)
    (hosts : List Str)
    (hok : ∀ host ∈ hosts, ∃ body, (executeApiCall httpGet host endpoint).2 = .ret (body, none)) :
    ∀ responses : List (Str × Str), ∃ effects result,
      fetchLoop httpGet endpoint hosts responses = (effects, .ret result) ∧
      ∀ x, x ∈ result.map Prod.fst ↔ x ∈ hosts ∨ x ∈ responses.map Prod.fst := by
  induction hosts with
  | nil => intro responses; exact ⟨[], responses, rfl, by simp⟩
  | cons host hosts ih =>
    intro responses
    obtain ⟨body, hbody⟩ := hok host (List.mem_cons_self _ _)
    obtain ⟨effects2, result, hres, hkeys⟩ :=
      ih (fun x hx => hok x (List.mem_cons_of_mem _ hx)) (mapSet responses host body)
    have hcall : executeApiCall httpGet host endpoint =
        ((executeApiCall httpGet host endpoint).1, .ret (body, none)) := by
      rw [← hbody]
    refine ⟨(executeApiCall httpGet host endpoint).1 ++ effects2, result, ?_, ?_⟩
    · rw [fetchLoop, hcall]
      simp only [hres]
    · intro x
      rw [hkeys, mem_keys_mapSet]
      simp only [List.mem_cons]
      tauto

/-- C10 (counterexample): with the host list `[h, h]`, of length two, and every fetch
succeeding, the map `responses` has one entry, and the read `values[1]` in
`compareResponses` is out of range. -/
theorem fetchLoop_entries_counterexample :
    (["h".toList, "h".toList] : List Str).length ≥ 2 ∧
    (executeApiCall (fun _ => .ok { StatusCode := 200, Body := .ok "1".toList })
      "h".toList "/e".toList).2 = .ret ("1".toList, none) ∧
    (fetchLoop (fun _ => .ok { StatusCode := 200, Body := .ok "1".toList }) "/e".toList
      ["h".toList, "h".toList] []).2 = .ret [("h".toList, "1".toList)] ∧
    compareResponses [("h".toList, "1".toList)] = none := by
  decide

/-- C10 (amended): when the host list names at least two different hosts and every fetch
succeeds, the loop over the hosts ends with a map `responses` of at least two entries, so
that in whatever order `compareResponses` visits them the reads `values[0]` and
`values[1]` are in bounds. -/
theorem fetchLoop_entries (httpGet : Str → Except Str Response) (endpoint : Str)
    (hosts : List Str)
    (hdistinct : ∃ h1 ∈ hosts, ∃ h2 ∈ hosts, h1 ≠ h2)
    (hok : ∀ host ∈ hosts, ∃ body, (executeApiCall httpGet host endpoint).2 = .ret (body, none)) :
    ∃ effects responses,
      fetchLoop httpGet endpoint hosts [] = (effects, .ret responses) ∧
      2 ≤ responses.length ∧
      ∀ visited : List (Str × Str), visited.Perm responses →
        ((visited.map Prod.snd).get? 0).isSome ∧ ((visited.map Prod.snd).get? 1).isSome := by
  obtain ⟨effects, responses, hres, hkeys⟩ := fetchLoop_keys httpGet endpoint hosts hok []
  obtain ⟨h1, hh1, h2, hh2, hne⟩ := hdistinct
  have m1 : h1 ∈ responses.map Prod.fst := (hkeys h1).mpr (Or.inl hh1)
  have m2 : h2 ∈ responses.map Prod.fst := (hkeys h2).mpr (Or.inl hh2)
  have hlen : 2 ≤ responses.length := by
    match responses, m1, m2 with
    | [], m1, _ => simp at m1
    | [e], m1, m2 =>
      simp only [List.map_cons, List.map_nil, List.mem_singleton] at m1 m2
      exact absurd (m1.trans m2.symm) hne
    | _ :: _ :: _, _, _ => simp
  refine ⟨effects, responses, hres, hlen, ?_⟩
  intro visited hperm
  have hl : 2 ≤ (visited.map Prod.snd).length := by
    rw [List.length_map, hperm.length_eq]; exact hlen
  constructor
  · rw [List.get?_eq_get (by omega)]; rfl
  · rw [List.get?_eq_get (by omega)]; rfl

theorem fetchLoop_entries_witness :
    ∃ effects responses,
      fetchLoop (fun _ => .ok { StatusCode := 200, Body := .ok "1".toList }) "/e".toList
        ["http://a".toList, "http://b".toList] [] = (effects, .ret responses) ∧
      2 ≤ responses.length ∧
      ∀ visited : List (Str × Str), visited.Perm responses →
        ((visited.map Prod.snd).get? 0).isSome ∧ ((visited.map Prod.snd).get? 1).isSome :=
  fetchLoop_entries _ _ _ ⟨"http://a".toList, by decide, "http://b".toList, by decide, by decide⟩
    (fun host _ => ⟨"1".toList, rfl⟩)

/-! ### Where the lines of a diff come from -/

theorem slice?_mem {α : Type} (xs : List α) (i n : Int) (r : List α)
    (h : slice? xs i n = some r) : ∀ l ∈ r, l ∈ xs := by
  unfold slice? at h
  split at h
  · cases h
    intro l hl
    exact List.mem_of_mem_drop (List.mem_of_mem_take hl)
  · cases h

theorem slice?_one_ne_nil {α : Type} (xs : List α) (i : Int) (r : List α)
    (h : slice? xs i 1 = some r) : r ≠ [] := by
  unfold slice? at h
  split at h
  · rename_i hc
    cases h
    intro e
    have := congrArg List.length e
    simp only [List.length_take, List.length_drop, List.length_nil] at this
    omega
  · cases h

theorem slice?_ite_mem {α : Type} (xs : List α) (p : Prop) [Decidable p] (i n : Int)
    (r : List α) (h : (if p then slice? xs i n else some []) = some r) : ∀ l ∈ r, l ∈ xs := by
  by_cases hp : p
  · rw [if_pos hp] at h
    exact slice?_mem xs i n r h
  · rw [if_neg hp] at h
    cases h
    simp

theorem traceStep_from (a b : List Str) (maxPath : Int) (endpoint : List Int) (d x y : Int)
    (c : Chunk) (x0 y0 : Int) (h : traceStep a b maxPath endpoint d x y = some (c, x0, y0)) :
    Chunk.from a b c ∧ (c.Added ≠ [] ∨ c.Deleted ≠ []) := by
  unfold traceStep at h
  simp only at h
  split at h
  · cases h
  · rename_i insert hins
    split at h
    · cases h
    · rename_i x1 hx1
      split at h
      · cases h
      · rename_i xx0 hx0
        split at h
        · rename_i added deleted equal hadd hdel heq
          simp only [Option.some.injEq, Prod.mk.injEq] at h
          obtain ⟨rfl, -, -⟩ := h
          cases insert with
          | true =>
            simp only [if_true] at hadd hdel
            cases hdel
            exact ⟨⟨slice?_mem _ _ _ _ hadd, by simp, slice?_ite_mem _ _ _ _ _ heq⟩,
              Or.inl (slice?_one_ne_nil _ _ _ hadd)⟩
          | false =>
            simp only [Bool.false_eq_true, if_false] at hadd hdel
            cases hadd
            exact ⟨⟨by simp, slice?_mem _ _ _ _ hdel, slice?_ite_mem _ _ _ _ _ heq⟩,
              Or.inr (slice?_one_ne_nil _ _ _ hdel)⟩
        · cases h

theorem traceLoop_from (a b : List Str) (maxPath : Int) (saved : List (List Int)) :
    ∀ (d : Nat) (x y : Int) (acc : List Chunk) (x2 y2 : Int) (chunks : List Chunk),
      traceLoop a b maxPath saved d x y acc = some (x2, y2, chunks) →
      (∀ c ∈ acc, Chunk.from a b c) →
      (∀ c ∈ chunks, Chunk.from a b c) ∧
        ((0 < d ∨ ∃ c ∈ acc, c.Added ≠ [] ∨ c.Deleted ≠ []) →
          ∃ c ∈ chunks, c.Added ≠ [] ∨ c.Deleted ≠ []) := by
  intro d
  induction d with
  | zero =>
    intro x y acc x2 y2 chunks h hacc
    simp only [traceLoop, Option.some.injEq, Prod.mk.injEq] at h
    obtain ⟨-, -, rfl⟩ := h
    refine ⟨hacc, ?_⟩
    rintro (h | h)
    · exact absurd h (lt_irrefl 0)
    · exact h
  | succ d ih =>
    intro x y acc x2 y2 chunks h hacc
    rw [traceLoop] at h
    split at h
    · cases h
    · rename_i endpoint _
      split at h
      · cases h
      · rename_i c x0 y0 hstep
        have hc := traceStep_from a b maxPath endpoint _ x y c x0 y0 hstep
        have hacc2 : ∀ c2 ∈ c :: acc, Chunk.from a b c2 := by
          intro c2 hc2
          rcases List.mem_cons.mp hc2 with rfl | hc2
          · exact hc.1
          · exact hacc c2 hc2
        obtain ⟨r1, r2⟩ := ih x0 y0 (c :: acc) x2 y2 chunks h hacc2
        exact ⟨r1, fun _ => r2 (Or.inr ⟨c, List.mem_cons_self _ _, hc.2⟩)⟩

theorem dLoop_nonneg (a b : List Str) (maxPath : Int) :
    ∀ (n : Nat) (editDistance : Int) (endpoint : List Int) (saved : List (List Int))
      (r : Int) (saved2 : List (List Int)),
      dLoop a b maxPath n editDistance endpoint saved = some (r, saved2) →
      0 ≤ editDistance → 0 ≤ r := by
  intro n
  induction n with
  | zero =>
    intro ed endpoint saved r saved2 h h0
    simp only [dLoop, Option.some.injEq, Prod.mk.injEq] at h
    omega
  | succ n ih =>
    intro ed endpoint saved r saved2 h h0
    rw [dLoop] at h
    split at h
    · cases h
    · rename_i endpoint1 found _
      split at h
      · simp only [Option.some.injEq, Prod.mk.injEq] at h
        omega
      · exact ih _ _ _ _ _ h (by omega)

theorem DiffChunks_from (a b : List Str) (chunks : List Chunk)
    (h : DiffChunks a b = some chunks) :
    (∀ c ∈ chunks, Chunk.from a b c) ∧ (chunks = [] ∨ diffLines chunks ≠ []) := by
  unfold DiffChunks at h
  simp only at h
  split at h
  · cases h
    exact ⟨by simp, Or.inl rfl⟩
  · split at h
    · cases h
    · rename_i ed saved hloop
      have hed := dLoop_nonneg a b _ _ _ _ _ _ _ hloop (le_refl 0)
      split at h
      · cases h
        exact ⟨by simp, Or.inl rfl⟩
      · rename_i hne
        split at h
        · cases h
        · rename_i x y cs htrace
          have ht := traceLoop_from a b _ saved _ _ _ [] x y cs htrace (by simp)
          have hex : ∃ c ∈ cs, c.Added ≠ [] ∨ c.Deleted ≠ [] :=
            ht.2 (Or.inl (by omega))
          have hlines : ∀ cs2 : List Chunk, (∀ c ∈ cs, c ∈ cs2) → diffLines cs2 ≠ [] := by
            intro cs2 hsub
            obtain ⟨c, hc, hc2⟩ := hex
            intro e
            simp only [diffLines, List.flatMap_eq_nil_iff, List.append_eq_nil, List.map_eq_nil_iff]
              at e
            have := e c (hsub c hc)
            tauto
          split at h
          · cases h
          · rename_i equal0 heq0
            have h0 : ∀ l ∈ equal0, l ∈ a := slice?_ite_mem _ _ _ _ _ heq0
            split at h
            · cases h
              exact ⟨ht.1, Or.inr (hlines _ (fun c hc => hc))⟩
            · cases h
              refine ⟨?_, Or.inr (hlines _ (fun c hc => List.mem_cons_of_mem _ hc))⟩
              intro c hc
              rcases List.mem_cons.mp hc with rfl | hc
              · exact ⟨by simp, by simp, h0⟩
              · exact ht.1 c hc

theorem splitFrom_noNewline (s : Str) :
    ∀ cur : Str, '\n' ∉ cur → ∀ l ∈ splitFrom cur s, '\n' ∉ l := by
  induction s with
  | nil =>
    intro cur hcur l hl
    simp only [splitFrom, List.mem_singleton] at hl
    rw [hl]; exact hcur
  | cons c t ih =>
    intro cur hcur l hl
    rw [splitFrom] at hl
    split at hl
    · rcases List.mem_cons.mp hl with rfl | hl
      · exact hcur
      · exact ih [] (by simp) l hl
    · rename_i hc
      exact ih (cur ++ [c]) (by simp [hcur, Ne.symm hc]) l hl

theorem splitLines_noNewline (s l : Str) (h : l ∈ splitLines s) : '\n' ∉ l :=
  splitFrom_noNewline s [] (by simp) l h

theorem splitFrom_line (l : Str) (hl : '\n' ∉ l) (rest : Str) :
    ∀ cur : Str, splitFrom cur (l ++ '\n' :: rest) = (cur ++ l) :: splitFrom [] rest := by
  induction l with
  | nil => intro cur; simp [splitFrom]
  | cons c l ih =>
    intro cur
    have hc : c ≠ '\n' := fun e => hl (e ▸ List.mem_cons_self _ _)
    rw [List.cons_append, splitFrom, if_neg hc, ih (fun hm => hl (List.mem_cons_of_mem _ hm))]
    simp

theorem splitFrom_last (l : Str) (hl : '\n' ∉ l) :
    ∀ cur : Str, splitFrom cur l = [cur ++ l] := by
  induction l with
  | nil => intro cur; simp [splitFrom]
  | cons c l ih =>
    intro cur
    have hc : c ≠ '\n' := fun e => hl (e ▸ List.mem_cons_self _ _)
    rw [splitFrom, if_neg hc, ih (fun hm => hl (List.mem_cons_of_mem _ hm))]
    simp

theorem splitLines_lines (ls : List Str) (h : ∀ l ∈ ls, '\n' ∉ l) (rest : Str) :
    splitLines (ls.flatMap (fun l => l ++ "\n".toList) ++ rest) = ls ++ splitLines rest := by
  induction ls with
  | nil => rfl
  | cons l ls ih =>
    have e : (l :: ls).flatMap (fun l => l ++ "\n".toList) ++ rest =
        l ++ '\n' :: (ls.flatMap (fun l => l ++ "\n".toList) ++ rest) := by
      simp
    have ih2 := ih (fun x hx => h x (List.mem_cons_of_mem _ hx))
    unfold splitLines at ih2 ⊢
    rw [e, splitFrom_line l (h l (List.mem_cons_self _ _)), ih2]
    simp

theorem trimRightNewlines_lines (init : List Str) (last : Str) (c : Char) (hc : c ≠ '\n')
    (hlast : '\n' ∉ last) :
    trimRightNewlines ((init ++ [c :: last]).flatMap (fun l => l ++ "\n".toList)) =
      init.flatMap (fun l => l ++ "\n".toList) ++ c :: last := by
  have e : (init ++ [c :: last]).flatMap (fun l => l ++ "\n".toList) =
      (init.flatMap (fun l => l ++ "\n".toList) ++ c :: last) ++ ['\n'] := by
    simp
  rw [e]
  unfold trimRightNewlines
  rw [List.rdropWhile_concat_pos _ _ _ (by simp)]
  rcases List.eq_nil_or_concat (c :: last) with h | ⟨L, z, h⟩
  · cases h
  · have hz : z ≠ '\n' := by
      intro ez
      have : z ∈ c :: last := by rw [h]; simp
      rcases List.mem_cons.mp this with rfl | hm
      · exact hc ez
      · exact hlast (ez ▸ hm)
    rw [h, List.concat_eq_append, ← List.append_assoc,
      List.rdropWhile_concat_neg _ _ _ (by simpa using hz)]

theorem Render_eq (chunks : List Chunk) :
    Render chunks = trimRightNewlines ((diffLines chunks).flatMap (fun l => l ++ "\n".toList)) := by
  unfold Render diffLines
  congr 1
  induction chunks with
  | nil => rfl
  | cons c cs ih =>
    simp only [List.flatMap_cons, List.flatMap_append, ih]
    congr 1
    simp [List.flatMap_map]

theorem mem_diffLines (chunks : List Chunk) (line : Str) :
    line ∈ diffLines chunks ↔ ∃ c ∈ chunks,
      (∃ l ∈ c.Added, line = '+' :: l) ∨ (∃ l ∈ c.Deleted, line = '-' :: l) ∨
        (∃ l ∈ c.Equal, line = ' ' :: l) := by
  simp only [diffLines, List.mem_flatMap, List.mem_append, List.mem_map]
  constructor
  · rintro ⟨c, hc, (⟨l, hl, rfl⟩ | ⟨l, hl, rfl⟩) | ⟨l, hl, rfl⟩⟩
    · exact ⟨c, hc, Or.inl ⟨l, hl, rfl⟩⟩
    · exact ⟨c, hc, Or.inr (Or.inl ⟨l, hl, rfl⟩)⟩
    · exact ⟨c, hc, Or.inr (Or.inr ⟨l, hl, rfl⟩)⟩
  · rintro ⟨c, hc, ⟨l, hl, rfl⟩ | ⟨l, hl, rfl⟩ | ⟨l, hl, rfl⟩⟩
    · exact ⟨c, hc, Or.inl (Or.inl ⟨l, hl, rfl⟩)⟩
    · exact ⟨c, hc, Or.inl (Or.inr ⟨l, hl, rfl⟩)⟩
    · exact ⟨c, hc, Or.inr ⟨l, hl, rfl⟩⟩

theorem splitLines_marked (ls : List Str) (hne : ls ≠ []) (h : ∀ l ∈ ls, markedLine l) :
    ∃ init c last, ls = init ++ [c :: last] ∧
      trimRightNewlines (ls.flatMap (fun l => l ++ "\n".toList)) =
        init.flatMap (fun l => l ++ "\n".toList) ++ c :: last ∧
      splitLines (trimRightNewlines (ls.flatMap (fun l => l ++ "\n".toList))) = ls := by
  rcases List.eq_nil_or_concat ls with e | ⟨init, z, e⟩
  · exact absurd e hne
  · rw [List.concat_eq_append] at e
    subst e
    obtain ⟨c, last, rfl, hc, hlast⟩ := h z (by simp)
    have hinit : ∀ l ∈ init, '\n' ∉ l := by
      intro l hl
      obtain ⟨c2, l2, rfl, hc2, hl2⟩ := h l (by simp [hl])
      intro hm
      rcases List.mem_cons.mp hm with e | hm
      · exact hc2 e.symm
      · exact hl2 hm
    have hlast2 : '\n' ∉ c :: last := by
      intro hm
      rcases List.mem_cons.mp hm with e | hm
      · exact hc e.symm
      · exact hlast hm
    have ht := trimRightNewlines_lines init last c hc hlast
    refine ⟨init, c, last, rfl, ht, ?_⟩
    rw [ht, splitLines_lines init hinit]
    unfold splitLines
    rw [splitFrom_last _ hlast2]
    rfl

/-- The text `diff.Diff(A, B)` is empty, from no chunk, or its lines are the marked lines
of its chunks, whose added lines are lines of `B` and whose deleted and equal lines are
lines of `A`. -/
theorem Diff_lines (A B d : Str) (h : Diff A B = some d) :
    ∃ chunks, DiffChunks (splitLines A) (splitLines B) = some chunks ∧
      d = Render chunks ∧
      (chunks = [] ∧ d = [] ∨ splitLines d = diffLines chunks ∧ diffLines chunks ≠ []) ∧
      (∀ line ∈ diffLines chunks, markedLine line) ∧
      ∀ c ∈ chunks, Chunk.from (splitLines A) (splitLines B) c := by
  unfold Diff at h
  cases hch : DiffChunks (splitLines A) (splitLines B) with
  | none => rw [hch] at h; cases h
  | some chunks =>
    rw [hch] at h
    simp only [Option.map_some', Option.some.injEq] at h
    obtain ⟨hfrom, hne⟩ := DiffChunks_from _ _ chunks hch
    have hmarked : ∀ line ∈ diffLines chunks, markedLine line := by
      intro line hline
      obtain ⟨c, hc, ⟨l, hl, rfl⟩ | ⟨l, hl, rfl⟩ | ⟨l, hl, rfl⟩⟩ :=
        (mem_diffLines chunks line).mp hline
      · exact ⟨'+', l, rfl, by decide, splitLines_noNewline B l ((hfrom c hc).1 l hl)⟩
      · exact ⟨'-', l, rfl, by decide, splitLines_noNewline A l ((hfrom c hc).2.1 l hl)⟩
      · exact ⟨' ', l, rfl, by decide, splitLines_noNewline A l ((hfrom c hc).2.2 l hl)⟩
    refine ⟨chunks, rfl, h.symm, ?_, hmarked, hfrom⟩
    rcases hne with rfl | hne2
    · left
      refine ⟨rfl, ?_⟩
      rw [← h]
      rfl
    · right
      obtain ⟨_, _, _, _, _, hsplit⟩ := splitLines_marked (diffLines chunks) hne2 hmarked
      refine ⟨?_, hne2⟩
      rw [← h, Render_eq, hsplit]

/-! ### The diff of a text against itself -/

theorem index?_replicate (n : Nat) (i : Int) (h0 : 0 ≤ i) (hn : i < n) :
    index? (List.replicate n (0 : Int)) i = some 0 := by
  unfold index?
  rw [if_neg (by omega)]
  have : i.toNat < n := by omega
  simp [List.get?_eq_getElem?, List.getElem?_replicate, this]

theorem index?_natCast {α : Type} (xs : List α) (i : Nat) :
    index? xs (i : Int) = xs.get? i := by
  unfold index?
  rw [if_neg (by omega)]
  simp

theorem snake_self (a : List Str) :
    ∀ (fuel i : Nat), i ≤ a.length → a.length - i < fuel →
      snake a a fuel (i : Int) (i : Int) = some ((a.length : Int), (a.length : Int)) := by
  intro fuel
  induction fuel with
  | zero => intro i _ h; omega
  | succ fuel ih =>
    intro i hi hf
    rw [snake]
    by_cases hlt : i < a.length
    · have hcond : (i : Int) < a.length ∧ (i : Int) < a.length := by omega
      rw [if_pos hcond, index?_natCast, List.get?_eq_get hlt]
      simp only [if_true]
      have := ih (i + 1) (by omega) (by omega)
      simpa using this
    · have hcond : ¬ ((i : Int) < a.length ∧ (i : Int) < a.length) := by omega
      rw [if_neg hcond]
      have : i = a.length := by omega
      rw [this]

/-- The diff of a list of lines against itself has no chunk. -/
theorem DiffChunks_self (a : List Str) : DiffChunks a a = some [] := by
  by_cases ha : a = []
  · subst ha
    rfl
  have hlen : 0 < a.length := List.length_pos.mpr ha
  have hstart : startOn (List.replicate (2 * (a.length + a.length) + 1) (0 : Int))
      ((a.length : Int) + a.length) 0 0 = some 0 := by
    unfold startOn
    simp only [neg_zero, if_true]
    exact index?_replicate _ _ (by omega) (by omega)
  have hsnake : snake a a (a.length + 1) 0 (0 - 0) = some ((a.length : Int), (a.length : Int)) := by
    have := snake_self a (a.length + 1) 0 (by omega) (by omega)
    simpa using this
  have hset : ∃ e1, setIndex? (List.replicate (2 * (a.length + a.length) + 1) (0 : Int))
      ((a.length : Int) + a.length + 0) a.length = some e1 := by
    unfold setIndex?
    rw [if_pos (by simp only [List.length_replicate]; omega)]
    exact ⟨_, rfl⟩
  obtain ⟨e1, he1⟩ := hset
  have hdiag : diagLoop a a ((a.length : Int) + a.length) 0 ((0 : Int).toNat + 1) (-0)
      (List.replicate (2 * (a.length + a.length) + 1) (0 : Int)) = some (e1, true) := by
    simp only [Int.toNat_zero, zero_add, neg_zero, diagLoop, hstart, hsnake, he1]
    simp
  have hloop : dLoop a a ((a.length : Int) + a.length) (a.length + a.length + 1) 0
      (List.replicate (2 * (a.length + a.length) + 1) (0 : Int)) [] = some (0, [e1]) := by
    rw [dLoop, hdiag]
    simp
  unfold DiffChunks
  simp only
  rw [if_neg (by omega), hloop]
  simp

theorem snake_end (a b : List Str) :
    ∀ (fuel i : Nat) (x y : Int), snake a b fuel (i : Int) (i : Int) = some (x, y) →
      (a.length : Int) ≤ x → (b.length : Int) ≤ y → a.drop i = b.drop i := by
  intro fuel
  induction fuel with
  | zero =>
    intro i x y h
    simp [snake] at h
  | succ fuel ih =>
    intro i x y h hx hy
    rw [snake] at h
    by_cases hc : (i : Int) < a.length ∧ (i : Int) < b.length
    · have ha : i < a.length := by omega
      have hb : i < b.length := by omega
      rw [if_pos hc, index?_natCast, index?_natCast, List.get?_eq_get ha,
        List.get?_eq_get hb] at h
      simp only at h
      split at h
      · rename_i e
        have hrec := ih (i + 1) x y (by simpa using h) hx hy
        rw [List.drop_eq_getElem_cons ha, List.drop_eq_getElem_cons hb, hrec]
        simp only [List.get_eq_getElem] at e
        rw [e]
      · simp only [Option.some.injEq, Prod.mk.injEq] at h
        omega
    · rw [if_neg hc] at h
      simp only [Option.some.injEq, Prod.mk.injEq] at h
      rw [List.drop_eq_nil_of_le (by omega), List.drop_eq_nil_of_le (by omega)]

theorem dLoop_ge (a b : List Str) (maxPath : Int) :
    ∀ (n : Nat) (editDistance : Int) (endpoint : List Int) (saved : List (List Int))
      (r : Int) (saved2 : List (List Int)),
      dLoop a b maxPath n editDistance endpoint saved = some (r, saved2) →
      editDistance ≤ r := by
  intro n
  induction n with
  | zero =>
    intro ed endpoint saved r saved2 h
    simp only [dLoop, Option.some.injEq, Prod.mk.injEq] at h
    omega
  | succ n ih =>
    intro ed endpoint saved r saved2 h
    rw [dLoop] at h
    split at h
    · cases h
    · split at h
      · simp only [Option.some.injEq, Prod.mk.injEq] at h
        omega
      · have := ih _ _ _ _ _ h
        omega

/-- A diff without chunk is the diff of two equal lists of lines. -/
theorem DiffChunks_nil (a b : List Str) (h : DiffChunks a b = some []) : a = b := by
  unfold DiffChunks at h
  simp only at h
  split at h
  · have ha : a.length = 0 := by omega
    have hb : b.length = 0 := by omega
    rw [List.length_eq_zero.mp ha, List.length_eq_zero.mp hb]
  · rename_i hz
    split at h
    · cases h
    · rename_i ed saved hloop
      have hed := dLoop_nonneg a b _ _ _ _ _ _ _ hloop (le_refl 0)
      split at h
      · rename_i hed0
        subst hed0
        rw [dLoop] at hloop
        split at hloop
        · cases hloop
        · rename_i E1 found hdiag
          split at hloop
          · have hstart : startOn (List.replicate (2 * (a.length + b.length) + 1) (0 : Int))
                ((a.length : Int) + b.length) 0 0 = some 0 := by
              unfold startOn
              simp only [neg_zero, if_true]
              exact index?_replicate _ _ (by omega) (by omega)
            simp only [Int.toNat_zero, zero_add, neg_zero, diagLoop, hstart] at hdiag
            split at hdiag
            · cases hdiag
            · rename_i x y hsnake
              split at hdiag
              · cases hdiag
              · split at hdiag
                · rename_i hend
                  have := snake_end a b (a.length + 1) 0 x y (by simpa using hsnake)
                    hend.1 hend.2
                  simpa using this
                · rename_i hf _ _ _ _ _
                  simp only [Option.some.injEq, Prod.mk.injEq] at hdiag
                  rw [← hdiag.2] at hf
                  exact absurd hf (by decide)
          · have := dLoop_ge a b _ _ _ _ _ _ _ hloop
            omega
      · split at h
        · cases h
        · rename_i x y cs htrace
          have ht := traceLoop_from a b _ saved _ _ _ [] x y cs htrace (by simp)
          obtain ⟨c, hc, _⟩ := ht.2 (Or.inl (by omega))
          split at h
          · cases h
          · split at h
            · cases h
              simp at hc
            · cases h

/-! ### Scanned lines are lines -/

theorem scanFrom_mem (t : Str) :
    ∀ cur : Str, ∀ s ∈ scanFrom cur t, ∃ l ∈ splitFrom cur t, s = dropCR l := by
  induction t with
  | nil =>
    intro cur s hs
    rw [scanFrom] at hs
    split at hs
    · simp at hs
    · exact ⟨cur, by simp [splitFrom], List.mem_singleton.mp hs⟩
  | cons c t ih =>
    intro cur s hs
    rw [scanFrom] at hs
    rw [splitFrom]
    split at hs
    · rename_i hc
      rw [if_pos hc]
      rcases List.mem_cons.mp hs with rfl | hs
      · exact ⟨cur, List.mem_cons_self _ _, rfl⟩
      · obtain ⟨l, hl, e⟩ := ih [] s hs
        exact ⟨l, List.mem_cons_of_mem _ hl, e⟩
    · rename_i hc
      rw [if_neg hc]
      split at hs
      · simp at hs
      · exact ih _ s hs

theorem dropCR_cons (c : Char) (l : Str) (hc : c ≠ '\r') :
    ∃ l2, dropCR (c :: l) = c :: l2 ∧ ∀ x ∈ l2, x ∈ l := by
  unfold dropCR
  split
  · rename_i h
    cases l with
    | nil =>
      simp only [List.getLast?_singleton, Option.some.injEq] at h
      exact absurd h hc
    | cons d t =>
      exact ⟨(d :: t).dropLast, by simp [List.dropLast],
        fun x hx => List.mem_of_mem_dropLast hx⟩
  · exact ⟨l, rfl, fun x hx => hx⟩

/-! ### The diff never panics -/

theorem index?_diagAt (M : Int) (E : List Int) (i k : Int) (hlen : (E.length : Int) = 2 * M + 1)
    (hi : i = M + k) (h1 : -M ≤ k) (h2 : k ≤ M) : index? E i = some (diagAt M E k) := by
  subst hi
  unfold index? diagAt
  rw [if_neg (by omega)]
  have hlt : (M + k).toNat < E.length := by omega
  rw [List.get?_eq_get hlt]
  rfl

theorem setIndex?_diagAt (M : Int) (E : List Int) (i k v : Int)
    (hlen : (E.length : Int) = 2 * M + 1) (hi : i = M + k) (h1 : -M ≤ k) (h2 : k ≤ M) :
    ∃ E2, setIndex? E i v = some E2 ∧ (E2.length : Int) = 2 * M + 1 ∧ diagAt M E2 k = v ∧
      ∀ k2, -M ≤ k2 → k2 ≠ k → diagAt M E2 k2 = diagAt M E k2 := by
  subst hi
  unfold setIndex?
  rw [if_pos (by omega)]
  refine ⟨_, rfl, by simpa using hlen, ?_, ?_⟩
  · unfold diagAt
    have hlt : (M + k).toNat < E.length := by omega
    simp [List.get?_eq_getElem?, List.getElem?_set, hlt]
  · intro k2 hk2 hne
    unfold diagAt
    have : (M + k).toNat ≠ (M + k2).toNat := by omega
    simp [List.get?_eq_getElem?, List.getElem?_set, this]

theorem startOn_eq (M : Int) (E : List Int) (d k : Int) (hlen : (E.length : Int) = 2 * M + 1)
    (hM : 1 ≤ M) (_hd0 : 0 ≤ d) (hdM : d ≤ M) (hk1 : -d ≤ k) (hk2 : k ≤ d) :
    startOn E M d k = some (startAt d (diagAt M E) k) := by
  unfold startOn startAt
  by_cases h1 : k = -d
  · rw [if_pos h1, if_pos h1]
    exact index?_diagAt M E _ (k + 1) hlen (by omega) (by omega) (by omega)
  · rw [if_neg h1, if_neg h1]
    by_cases h2 : k = d
    · rw [if_pos h2, if_pos h2, index?_diagAt M E _ (k - 1) hlen (by omega) (by omega) (by omega)]
      rfl
    · rw [if_neg h2, if_neg h2,
        index?_diagAt M E _ (k + 1) hlen (by omega) (by omega) (by omega),
        index?_diagAt M E _ (k - 1) hlen (by omega) (by omega) (by omega)]
      simp only
      split <;> rfl

theorem index?_some {α : Type} (xs : List α) (i : Int) (h0 : 0 ≤ i) (h1 : i < xs.length) :
    ∃ x, index? xs i = some x := by
  unfold index?
  rw [if_neg (by omega)]
  have hlt : i.toNat < xs.length := by omega
  exact ⟨_, List.get?_eq_get hlt⟩

theorem snake_spec (a b : List Str) :
    ∀ (fuel : Nat) (p q : Int), 0 ≤ p → 0 ≤ q → 0 < fuel → (a.length : Int) - p < fuel →
      ∃ p2, snake a b fuel p q = some (p2, q + (p2 - p)) ∧ p ≤ p2 ∧
        (p2 = p ∨ (p2 ≤ a.length ∧ q + (p2 - p) ≤ b.length)) := by
  intro fuel
  induction fuel with
  | zero => intro p q _ _ h0 _; exact absurd h0 (lt_irrefl 0)
  | succ fuel ih =>
    intro p q hp hq _ hf
    rw [snake]
    by_cases hc : p < a.length ∧ q < b.length
    · rw [if_pos hc]
      obtain ⟨x, hx⟩ := index?_some a p hp hc.1
      obtain ⟨y, hy⟩ := index?_some b q hq hc.2
      rw [hx, hy]
      simp only
      by_cases hxy : x = y
      · rw [if_pos hxy]
        obtain ⟨p2, h1, h2, h3⟩ := ih (p + 1) (q + 1) (by omega) (by omega) (by omega)
          (by push_cast at hf ⊢; omega)
        refine ⟨p2, ?_, by omega, ?_⟩
        · rw [h1]
          congr 2
          omega
        · right
          rcases h3 with h3 | h3
          · subst h3
            constructor <;> omega
          · constructor <;> omega
      · rw [if_neg hxy]
        exact ⟨p, by simp, le_refl _, Or.inl rfl⟩
    · rw [if_neg hc]
      exact ⟨p, by simp, le_refl _, Or.inl rfl⟩

theorem Good.exact {A B d : Int} {W : Int → Int} (hW : Good A B d W) (hA : 0 ≤ A) (hB : 0 ≤ B)
    (_hd : -1 ≤ d) (j x : Int) (hj1 : -(d + 1) ≤ j) (hj2 : j ≤ d + 1)
    (hpar : (d + 1 - j) % 2 = 0) (hx : Reached A B (d + 1) W j x) (hxa : A ≤ x)
    (hxb : B ≤ x - j) : x = A ∧ x - j = B := by
  obtain ⟨_, hx2⟩ := hx
  rcases hx2 with hx2 | hx2
  · unfold startAt at hx2
    by_cases h1 : j = -(d + 1)
    · rw [if_pos h1] at hx2
      have hl := hW.left
      have e1 : j + 1 = -d := by omega
      rw [e1] at hx2
      by_cases hd0 : d = -1
      · have := hW.init hd0
        have e2 : (-d : Int) = 1 := by omega
        rw [e2] at hx2
        omega
      · have hn := hW.nd (-d) (by omega) (by omega) (by omega)
        omega
    · rw [if_neg h1] at hx2
      by_cases h2 : j = d + 1
      · rw [if_pos h2] at hx2
        have e1 : j - 1 = d := by omega
        rw [e1] at hx2
        have hr := hW.right (by omega)
        have hn := hW.nd d (by omega) (by omega) (by omega)
        omega
      · rw [if_neg h2] at hx2
        have hn1 := hW.nd (j + 1) (by omega) (by omega) (by omega)
        have hn2 := hW.nd (j - 1) (by omega) (by omega) (by omega)
        have ho := hW.over j (by omega) (by omega) (by omega)
        have hu := hW.under j (by omega) (by omega) (by omega)
        by_cases h3 : W (j + 1) > W (j - 1)
        · rw [if_pos h3] at hx2
          omega
        · rw [if_neg h3] at hx2
          omega
  · omega

theorem startAt_cases (e : Int) (W : Int → Int) (j : Int) :
    (startAt e W j = W (j + 1) ∧ (j = -e ∨ (j ≠ e ∧ W (j + 1) > W (j - 1)))) ∨
    (startAt e W j = W (j - 1) + 1 ∧ j ≠ -e ∧ (j = e ∨ ¬ W (j + 1) > W (j - 1))) := by
  unfold startAt
  by_cases h1 : j = -e
  · rw [if_pos h1]
    exact Or.inl ⟨rfl, Or.inl h1⟩
  · rw [if_neg h1]
    by_cases h2 : j = e
    · rw [if_pos h2]; exact Or.inr ⟨rfl, h1, Or.inl h2⟩
    · rw [if_neg h2]
      by_cases h3 : W (j + 1) > W (j - 1)
      · rw [if_pos h3]; exact Or.inl ⟨rfl, Or.inr ⟨h2, h3⟩⟩
      · rw [if_neg h3]; exact Or.inr ⟨rfl, h1, Or.inr h3⟩

theorem startAt_ge_up (e : Int) (W : Int → Int) (j : Int) (hj : j ≠ e) :
    W (j + 1) ≤ startAt e W j := by
  rcases startAt_cases e W j with ⟨h, _⟩ | ⟨h, _, h2⟩
  · rw [h]
  · rw [h]
    rcases h2 with h2 | h2
    · exact absurd h2 hj
    · omega

theorem startAt_ge_down (e : Int) (W : Int → Int) (j : Int) (hj : j ≠ -e) :
    W (j - 1) + 1 ≤ startAt e W j := by
  rcases startAt_cases e W j with ⟨h, h2⟩ | ⟨h, _⟩
  · rw [h]
    rcases h2 with h2 | h2
    · exact absurd h2 hj
    · omega
  · rw [h]

theorem Good.next {A B d : Int} {W U : Int → Int} (hW : Good A B d W) (hB : 0 ≤ B)
    (hd : -1 ≤ d)
    (hU : ∀ j, -(d + 1) ≤ j → j ≤ d + 1 → (d + 1 - j) % 2 = 0 →
      Reached A B (d + 1) W j (U j) ∧ ¬ (A ≤ U j ∧ B ≤ U j - j)) :
    Good A B (d + 1) U := by
  refine ⟨?_, ?_, ?_, ?_, ?_, ?_, ?_⟩
  · -- lower bound
    intro j hj1 hj2 hpar
    obtain ⟨⟨hge, _⟩, _⟩ := hU j hj1 hj2 hpar
    rcases startAt_cases (d + 1) W j with ⟨h, h2⟩ | ⟨h, h2, _⟩
    · rw [h] at hge
      by_cases hd0 : d = -1
      · have hi := hW.init hd0
        have e1 : j + 1 = 1 := by omega
        rw [e1] at hge
        omega
      · have := hW.lb (j + 1) (by omega) (by omega) (by omega)
        omega
    · rw [h] at hge
      have := hW.lb (j - 1) (by omega) (by omega) (by omega)
      omega
  · intro j hj1 hj2 hpar
    exact (hU j hj1 hj2 hpar).2
  · -- over
    intro k hk1 hk2 hpar hov
    obtain ⟨⟨_, hr⟩, _⟩ := hU (k + 1) (by omega) hk2 hpar
    obtain ⟨⟨hge, _⟩, _⟩ := hU (k - 1) hk1 (by omega) (by omega)
    have hup := startAt_ge_up (d + 1) W (k - 1) (by omega)
    have e1 : k - 1 + 1 = k := by omega
    rw [e1] at hup
    rcases hr with hr | hr
    · rcases startAt_cases (d + 1) W (k + 1) with ⟨h, h2⟩ | ⟨h, _⟩
      · rw [h] at hr
        have ho := hW.over (k + 1) (by omega) (by omega) (by omega)
        have e2 : k + 1 - 1 = k := by omega
        rw [e2] at ho
        omega
      · rw [h] at hr
        have e2 : k + 1 - 1 = k := by omega
        rw [e2] at hr
        omega
    · omega
  · -- under
    intro k hk1 hk2 hpar hun
    obtain ⟨⟨_, hr⟩, _⟩ := hU (k - 1) hk1 (by omega) (by omega)
    obtain ⟨⟨hge, _⟩, _⟩ := hU (k + 1) (by omega) hk2 hpar
    have hdown := startAt_ge_down (d + 1) W (k + 1) (by omega)
    have e1 : k + 1 - 1 = k := by omega
    rw [e1] at hdown
    rcases hr with hr | hr
    · rcases startAt_cases (d + 1) W (k - 1) with ⟨h, _⟩ | ⟨h, h2, h3⟩
      · rw [h] at hr
        have e2 : k - 1 + 1 = k := by omega
        rw [e2] at hr
        omega
      · rw [h] at hr
        have hu := hW.under (k - 1) (by omega) (by omega) (by omega)
        have e2 : k - 1 + 1 = k := by omega
        rw [e2] at hu h3
        omega
    · omega
  · -- left
    obtain ⟨⟨_, hr⟩, _⟩ := hU (-(d + 1)) (by omega) (by omega) (by omega)
    rcases hr with hr | hr
    · rcases startAt_cases (d + 1) W (-(d + 1)) with ⟨h, _⟩ | ⟨_, h2, _⟩
      · rw [h] at hr
        have hl := hW.left
        have e2 : -(d + 1) + 1 = -d := by omega
        rw [e2] at hr
        omega
      · exact absurd rfl h2
    · omega
  · -- right
    intro _
    obtain ⟨⟨_, hr⟩, _⟩ := hU (d + 1) (by omega) (by omega) (by omega)
    rcases hr with hr | hr
    · rcases startAt_cases (d + 1) W (d + 1) with ⟨h, h2⟩ | ⟨h, h2, _⟩
      · rw [h] at hr
        have hd0 : d = -1 := by omega
        have hi := hW.init hd0
        have e2 : d + 1 + 1 = 1 := by omega
        rw [e2] at hr
        omega
      · rw [h] at hr
        have e2 : d + 1 - 1 = d := by omega
        rw [e2] at hr
        have := hW.right (by omega)
        omega
    · omega
  · intro h
    omega

theorem startAt_lb {A B d : Int} {W : Int → Int} (hW : Good A B d W) (j : Int)
    (hj1 : -(d + 1) ≤ j) (hj2 : j ≤ d + 1) (hpar : (d + 1 - j) % 2 = 0) :
    d + 1 + j ≤ 2 * startAt (d + 1) W j := by
  rcases startAt_cases (d + 1) W j with ⟨h, h2⟩ | ⟨h, h2, _⟩
  · rw [h]
    by_cases hd0 : d = -1
    · have hi := hW.init hd0
      have e1 : j + 1 = 1 := by omega
      rw [e1]
      omega
    · have := hW.lb (j + 1) (by omega) (by omega) (by omega)
      omega
  · rw [h]
    have := hW.lb (j - 1) (by omega) (by omega) (by omega)
    omega

theorem startAt_congr (e : Int) (F G : Int → Int) (j : Int)
    (h1 : j ≠ e ∨ j = -e → F (j + 1) = G (j + 1))
    (h2 : j ≠ -e → F (j - 1) = G (j - 1)) : startAt e F j = startAt e G j := by
  unfold startAt
  by_cases c1 : j = -e
  · rw [if_pos c1, if_pos c1, h1 (Or.inr c1)]
  · rw [if_neg c1, if_neg c1]
    by_cases c2 : j = e
    · rw [if_pos c2, if_pos c2, h2 c1]
    · rw [if_neg c2, if_neg c2, h1 (Or.inl c2), h2 c1]

theorem diagLoop_spec (a b : List Str) (M d : Int) (W : Int → Int)
    (hM : M = (a.length : Int) + b.length) (hM1 : 1 ≤ M) (hd : -1 ≤ d) (hdM : d + 1 ≤ M)
    (hW : Good a.length b.length d W) :
    ∀ (n : Nat) (j : Int) (E : List Int), j = d + 1 - 2 * n + 2 → -(d + 1) ≤ j →
      Mid a.length b.length M (d + 1) W j E →
      ∃ E2 found, diagLoop a b M (d + 1) n j E = some (E2, found) ∧
        (found = false → Mid a.length b.length M (d + 1) W (d + 3) E2) ∧
        (found = true → ∃ j2, Mid a.length b.length M (d + 1) W j2 E2 ∧
          -(d + 1) ≤ j2 ∧ j2 ≤ d + 1 ∧ (d + 1 - j2) % 2 = 0 ∧
          diagAt M E2 j2 = a.length ∧ (a.length : Int) - j2 = b.length ∧
          startAt (d + 1) W j2 ≤ a.length) := by
  intro n
  induction n with
  | zero =>
    intro j E hj _ hmid
    refine ⟨E, false, rfl, fun _ => ?_, fun h => absurd h (by decide)⟩
    have : j = d + 3 := by omega
    rw [← this]
    exact hmid
  | succ n ih =>
    intro j E hj hj1 hmid
    have hj2 : j ≤ d + 1 := by omega
    have hpar : (d + 1 - j) % 2 = 0 := by omega
    rw [diagLoop, startOn_eq M E (d + 1) j hmid.len hM1 (by omega) hdM hj1 hj2]
    simp only
    have hst : startAt (d + 1) (diagAt M E) j = startAt (d + 1) W j := by
      refine startAt_congr _ _ _ _ ?_ ?_
      · intro hk
        exact hmid.keep (j + 1) (by omega) (by omega) (by omega)
      · intro hk
        exact hmid.keep (j - 1) (by omega) (by omega) (by omega)
    rw [hst]
    have hlb := startAt_lb hW j hj1 hj2 hpar
    obtain ⟨x, hsn, hx1, hx2⟩ := snake_spec a b (a.length + 1) (startAt (d + 1) W j)
      (startAt (d + 1) W j - j) (by omega) (by omega) (by omega) (by push_cast; omega)
    rw [hsn]
    simp only
    obtain ⟨E1, hset, hlen1, hnew, hold⟩ :=
      setIndex?_diagAt M E (M + j) j x hmid.len rfl (by omega) (by omega)
    rw [hset]
    simp only
    have hreach : Reached a.length b.length (d + 1) W j x := by
      refine ⟨hx1, ?_⟩
      rcases hx2 with h | h
      · exact Or.inl h
      · exact Or.inr ⟨h.1, by omega⟩
    have hkeep1 : ∀ k, -M ≤ k → k ≤ M → (d + 1 - 1 - k) % 2 = 0 → diagAt M E1 k = W k := by
      intro k hk1 hk2 hkpar
      rw [hold k hk1 (by omega)]
      exact hmid.keep k hk1 hk2 hkpar
    have hwritten1 : ∀ k, -(d + 1) ≤ k → k < j → (d + 1 - k) % 2 = 0 →
        Reached a.length b.length (d + 1) W k (diagAt M E1 k) ∧
          ¬ ((a.length : Int) ≤ diagAt M E1 k ∧ (b.length : Int) ≤ diagAt M E1 k - k) := by
      intro k hk1 hk2 hkpar
      rw [hold k (by omega) (by omega)]
      exact hmid.written k hk1 hk2 hkpar
    by_cases hdone : x ≥ a.length ∧ startAt (d + 1) W j - j + (x - startAt (d + 1) W j) ≥ b.length
    · rw [if_pos hdone]
      refine ⟨E1, true, rfl, fun h => absurd h (by decide), fun _ => ?_⟩
      have hex := hW.exact (by omega) (by omega) hd j x hj1 hj2 hpar hreach hdone.1 (by omega)
      refine ⟨j, ⟨hlen1, hkeep1, hwritten1⟩, hj1, hj2, hpar, ?_, by omega, ?_⟩
      · rw [hnew]; exact hex.1
      · rw [← hex.1]; exact hx1
    · rw [if_neg hdone]
      apply ih (j + 2) E1 (by push_cast at hj ⊢; omega) (by omega)
      refine ⟨hlen1, hkeep1, ?_⟩
      intro k hk1 hk2 hkpar
      by_cases hkj : k = j
      · subst hkj
        rw [hnew]
        exact ⟨hreach, fun h => hdone ⟨h.1, by omega⟩⟩
      · exact hwritten1 k hk1 (by omega) hkpar

theorem Good.found {A B M : Int} {W : Int → Int} (hM : M = A + B) (hA : 0 ≤ A) (hB : 0 ≤ B)
    (hW : Good A B M W) : False := by
  have h1 := hW.lb (A - B) (by omega) (by omega) (by omega)
  have h2 := hW.nd (A - B) (by omega) (by omega) (by omega)
  omega

theorem dLoop_spec (a b : List Str) (M : Int) (hM : M = (a.length : Int) + b.length)
    (hM1 : 1 ≤ M) :
    ∀ (n : Nat) (d : Int) (E : List Int) (saved : List (List Int)),
      -1 ≤ d → (n : Int) + (d + 1) = M + 1 → (saved.length : Int) = d + 1 →
      (E.length : Int) = 2 * M + 1 → Good a.length b.length d (diagAt M E) →
      (0 ≤ d → saved.get? d.toNat = some E) → Hist a.length b.length M saved →
      ∃ top savedC final, dLoop a b M n (d + 1) E saved = some (top, savedC ++ [final]) ∧
        0 ≤ top ∧ top ≤ M ∧ (savedC.length : Int) = top ∧
        Hist a.length b.length M savedC ∧ Final a.length b.length M top savedC final := by
  intro n
  induction n with
  | zero =>
    intro d E saved hd hn _ _ hgood _ _
    exfalso
    have : d = M := by omega
    subst this
    exact hgood.found hM (by omega) (by omega)
  | succ n ih =>
    intro d E saved hd hn hlen hE hgood hlast hhist
    have hmid0 : Mid a.length b.length M (d + 1) (diagAt M E) (-(d + 1)) E :=
      ⟨hE, fun _ _ _ _ => rfl, fun k h1 h2 _ => by omega⟩
    obtain ⟨E2, found, hrun, hnf, hf⟩ := diagLoop_spec a b M d (diagAt M E) hM hM1 hd
      (by omega) hgood ((d + 1).toNat + 1) (-(d + 1)) E (by push_cast; omega) (le_refl _) hmid0
    rw [dLoop, hrun]
    simp only
    cases found with
    | true =>
      simp only [if_true]
      obtain ⟨j2, hmid, hj1, hj2, hpar, hval, hK, hst⟩ := hf rfl
      have hj : j2 = (a.length : Int) - b.length := by omega
      subst hj
      refine ⟨d + 1, saved, E2, rfl, by omega, by omega, hlen, hhist, ?_⟩
      intro htop
      have e1 : d + 1 - 1 = d := by omega
      rw [e1]
      exact ⟨E, hlast (by omega), hgood, hmid.len,
        fun k h1 h2 h3 => hmid.keep k h1 h2 (by omega), hj1, hj2, hpar, hval, hst⟩
    | false =>
      simp only [Bool.false_eq_true, if_false]
      have hmid := hnf rfl
      have hgood2 : Good a.length b.length (d + 1) (diagAt M E2) := by
        apply hgood.next (by omega) hd
        intro j h1 h2 h3
        exact hmid.written j h1 (by omega) h3
      have hlen2 : ((saved ++ [E2]).length : Int) = d + 1 + 1 := by
        simp only [List.length_append, List.length_singleton]
        push_cast
        omega
      have hget : (saved ++ [E2]).get? (d + 1).toNat = some E2 := by
        have : (d + 1).toNat = saved.length := by omega
        rw [this]
        simp [List.get?_eq_getElem?]
      have hhist2 : Hist a.length b.length M (saved ++ [E2]) := by
        intro i hi
        simp only [List.length_append, List.length_singleton] at hi
        by_cases hlt : i + 1 < saved.length
        · obtain ⟨P, S, h1, h2, h3⟩ := hhist i hlt
          refine ⟨P, S, ?_, ?_, h3⟩
          · rw [List.get?_eq_getElem?, List.getElem?_append_left (by omega),
              ← List.get?_eq_getElem?]
            exact h1
          · rw [List.get?_eq_getElem?, List.getElem?_append_left (by omega),
              ← List.get?_eq_getElem?]
            exact h2
        · have hi2 : i + 1 = saved.length := by omega
          have hid : (i : Int) = d := by omega
          refine ⟨E, E2, ?_, ?_, ?_⟩
          · rw [List.get?_eq_getElem?, List.getElem?_append_left (by omega),
              ← List.get?_eq_getElem?]
            have := hlast (by omega)
            have e2 : d.toNat = i := by omega
            rw [e2] at this
            exact this
          · rw [hi2]
            simp [List.get?_eq_getElem?]
          · unfold Round
            rw [hid]
            have e3 : d + 3 = d + 1 + 2 := by omega
            exact ⟨hgood, hmid⟩
      exact ih (d + 1) E2 (saved ++ [E2]) (by omega) (by push_cast at hn ⊢; omega) hlen2
        hmid.len hgood2 (fun _ => hget) hhist2

theorem slice?_some {α : Type} (xs : List α) (i n : Int) (h0 : 0 ≤ i) (h1 : 0 ≤ n)
    (h2 : i + n ≤ xs.length) : ∃ r, slice? xs i n = some r := by
  unfold slice?
  rw [if_pos (by omega)]
  exact ⟨_, rfl⟩

theorem traceStep_spec (a b : List Str) (M dd : Int) (S : List Int) (W : Int → Int)
    (x y : Int) (hM : M = (a.length : Int) + b.length) (hdd : 0 ≤ dd) (hdM : dd + 1 ≤ M)
    (hlen : (S.length : Int) = 2 * M + 1)
    (hkeep : ∀ k, -M ≤ k → k ≤ M → (dd + 1 - 1 - k) % 2 = 0 → diagAt M S k = W k)
    (hW : Good a.length b.length dd W)
    (hk1 : -(dd + 1) ≤ x - y) (hk2 : x - y ≤ dd + 1) (hpar : (dd + 1 - (x - y)) % 2 = 0)
    (hx : diagAt M S (x - y) = x) (hst : startAt (dd + 1) W (x - y) ≤ x)
    (hxa : x ≤ a.length) (hyb : y ≤ b.length) :
    ∃ c x0 y0, traceStep a b M S (dd + 1) x y = some (c, x0, y0) ∧
      -dd ≤ x0 - y0 ∧ x0 - y0 ≤ dd ∧ (dd - (x0 - y0)) % 2 = 0 ∧ x0 = W (x0 - y0) ∧
      0 ≤ x0 ∧ x0 ≤ a.length ∧ y0 ≤ b.length := by
  have hread : ∀ k, -M ≤ k → k ≤ M → ∀ i, i = M + k → index? S i = some (diagAt M S k) :=
    fun k h1 h2 i hi => index?_diagAt M S i k hlen hi h1 h2
  have hx1 : index? S (M + (x - y)) = some x := by
    rw [hread (x - y) (by omega) (by omega) _ rfl, hx]
  unfold traceStep
  simp only
  rcases startAt_cases (dd + 1) W (x - y) with ⟨hs, hc⟩ | ⟨hs, hc1, hc2⟩
  · -- the step was an insertion
    have hins : (if x - y = -(dd + 1) then some true
        else if x - y ≠ dd + 1 then
          match index? S (M + (x - y) - 1), index? S (M + (x - y) + 1) with
          | some lo, some hi => some (decide (lo < hi))
          | _, _ => none
        else some false) = some true := by
      by_cases c1 : x - y = -(dd + 1)
      · rw [if_pos c1]
      · rw [if_neg c1]
        rcases hc with hc | ⟨hc, hgt⟩
        · exact absurd hc c1
        · rw [if_pos hc, hread (x - y - 1) (by omega) (by omega) _ (by omega),
            hread (x - y + 1) (by omega) (by omega) _ (by omega),
            hkeep (x - y - 1) (by omega) (by omega) (by omega),
            hkeep (x - y + 1) (by omega) (by omega) (by omega)]
          simp only [Option.some.injEq, decide_eq_true_eq]
          omega
    rw [hins]
    simp only [hx1, if_true]
    have hup : x - y + 1 ≤ dd := by
      rcases hc with hc | ⟨hc, _⟩ <;> omega
    have hv : diagAt M S (x - y + 1) = W (x - y + 1) :=
      hkeep (x - y + 1) (by omega) (by omega) (by omega)
    rw [hread (x - y + 1) (by omega) (by omega) _ (by omega), hv]
    simp only
    have hlb := hW.lb (x - y + 1) (by omega) hup (by omega)
    rw [hs] at hst
    obtain ⟨r1, hr1⟩ := slice?_some b (W (x - y + 1) - (x - y + 1)) 1 (by omega) (by omega)
      (by omega)
    obtain ⟨r2, hr2⟩ : ∃ r2, (if W (x - y + 1) < x then
        slice? a (W (x - y + 1)) (x - W (x - y + 1)) else some []) = some r2 := by
      by_cases c : W (x - y + 1) < x
      · rw [if_pos c]
        exact slice?_some a _ _ (by omega) (by omega) (by omega)
      · rw [if_neg c]
        exact ⟨_, rfl⟩
    rw [hr1, hr2]
    refine ⟨_, _, _, rfl, by omega, by omega, by omega, ?_, by omega, by omega, by omega⟩
    have e : W (x - y + 1) - (W (x - y + 1) - (x - y + 1)) = x - y + 1 := by omega
    rw [e]
  · -- the step was a deletion
    have hins : (if x - y = -(dd + 1) then some true
        else if x - y ≠ dd + 1 then
          match index? S (M + (x - y) - 1), index? S (M + (x - y) + 1) with
          | some lo, some hi => some (decide (lo < hi))
          | _, _ => none
        else some false) = some false := by
      rw [if_neg hc1]
      by_cases c2 : x - y = dd + 1
      · rw [if_neg (by simpa using c2)]
      · rw [if_pos c2]
        rcases hc2 with hc2 | hc2
        · exact absurd hc2 c2
        · rw [hread (x - y - 1) (by omega) (by omega) _ (by omega),
            hread (x - y + 1) (by omega) (by omega) _ (by omega),
            hkeep (x - y - 1) (by omega) (by omega) (by omega),
            hkeep (x - y + 1) (by omega) (by omega) (by omega)]
          simp only [Option.some.injEq, decide_eq_false_iff_not]
          omega
    rw [hins]
    simp only [hx1, Bool.false_eq_true, if_false]
    have hv : diagAt M S (x - y - 1) = W (x - y - 1) :=
      hkeep (x - y - 1) (by omega) (by omega) (by omega)
    rw [hread (x - y - 1) (by omega) (by omega) _ (by omega), hv]
    simp only
    have hlb := hW.lb (x - y - 1) (by omega) (by omega) (by omega)
    rw [hs] at hst
    obtain ⟨r1, hr1⟩ := slice?_some a (W (x - y - 1)) 1 (by omega) (by omega) (by omega)
    obtain ⟨r2, hr2⟩ : ∃ r2, (if W (x - y - 1) + 1 < x then
        slice? a (W (x - y - 1) + 1) (x - (W (x - y - 1) + 1)) else some []) = some r2 := by
      by_cases c : W (x - y - 1) + 1 < x
      · rw [if_pos c]
        exact slice?_some a _ _ (by omega) (by omega) (by omega)
      · rw [if_neg c]
        exact ⟨_, rfl⟩
    rw [hr1, hr2]
    refine ⟨_, _, _, rfl, by omega, by omega, by omega, ?_, by omega, by omega, by omega⟩
    have e : W (x - y - 1) - (W (x - y - 1) - (x - y - 1)) = x - y - 1 := by omega
    rw [e]

theorem traceLoop_spec (a b : List Str) (M : Int) (hM : M = (a.length : Int) + b.length)
    (savedC : List (List Int)) (final : List Int)
    (hhist : Hist a.length b.length M savedC) (hlenM : (savedC.length : Int) ≤ M) :
    ∀ (d : Nat) (x y : Int) (acc : List Chunk), d ≤ savedC.length →
      (d = 0 → 0 ≤ x ∧ x ≤ a.length) →
      (∀ d2, d = d2 + 1 → AtRound a.length b.length M (savedC ++ [final]) d2 x y) →
      ∃ x2 y2 chunks, traceLoop a b M (savedC ++ [final]) d x y acc = some (x2, y2, chunks) ∧
        0 ≤ x2 ∧ x2 ≤ a.length := by
  intro d
  induction d with
  | zero =>
    intro x y acc _ h0 _
    exact ⟨x, y, acc, rfl, (h0 rfl).1, (h0 rfl).2⟩
  | succ d ih =>
    intro x y acc hd _ hat
    obtain ⟨S, P, hS, hP, hgood, hlen, hkeep, hk1, hk2, hpar, hx, hst, hxa, hyb⟩ := hat d rfl
    obtain ⟨c, x0, y0, hstep, h1, h2, h3, h4, h5, h6, h7⟩ :=
      traceStep_spec a b M d S (diagAt M P) x y hM (by omega) (by omega) hlen hkeep hgood
        hk1 hk2 hpar hx hst hxa hyb
    rw [traceLoop, hS]
    simp only
    have hcast : (((d + 1 : Nat) : Int)) = (d : Int) + 1 := by push_cast; rfl
    rw [hcast, hstep]
    simp only
    apply ih x0 y0 (c :: acc) (by omega) (fun _ => ⟨h5, h6⟩)
    intro d2 hd2
    subst hd2
    obtain ⟨P2, S2, hP2, hS2, hgood2, hmid2⟩ := hhist d2 (by omega)
    have hS2' : (savedC ++ [final]).get? (d2 + 1) = some S2 := by
      rw [List.get?_eq_getElem?, List.getElem?_append_left (by omega), ← List.get?_eq_getElem?]
      exact hS2
    have hP2' : (savedC ++ [final]).get? d2 = some P2 := by
      rw [List.get?_eq_getElem?, List.getElem?_append_left (by omega), ← List.get?_eq_getElem?]
      exact hP2
    have hPS : P = S2 := by
      rw [hS2'] at hP
      exact (Option.some.inj hP).symm
    subst hPS
    have hw := (hmid2.written (x0 - y0) (by push_cast at h1 ⊢; omega)
      (by push_cast at h2 ⊢; omega) (by push_cast at h3 ⊢; omega)).1.1
    refine ⟨P, P2, hS2', hP2', hgood2, hmid2.len, ?_, by push_cast at h1 ⊢; omega,
      by push_cast at h2 ⊢; omega, by push_cast at h3 ⊢; omega, h4.symm, ?_, h6, h7⟩
    · intro k hk1 hk2 hkpar
      exact hmid2.keep k hk1 hk2 hkpar
    · rw [← h4] at hw
      exact hw

theorem diagAt_replicate (M : Int) (n : Nat) (k : Int) :
    diagAt M (List.replicate n (0 : Int)) k = 0 := by
  unfold diagAt
  by_cases h : (M + k).toNat < n
  · simp [List.get?_eq_getElem?, List.getElem?_replicate, h]
  · simp [List.get?_eq_getElem?, List.getElem?_replicate, h]

/-- The model of `diff.DiffChunks` returns for all inputs: no index or slice expression is
out of range, and the end of both inputs is found in one of the rounds. -/
theorem DiffChunks_total (a b : List Str) : ∃ chunks, DiffChunks a b = some chunks := by
  unfold DiffChunks
  simp only
  by_cases h0 : (a.length : Int) + b.length = 0
  · rw [if_pos h0]
    exact ⟨_, rfl⟩
  · rw [if_neg h0]
    have hM1 : 1 ≤ (a.length : Int) + b.length := by omega
    have hgood0 : Good (a.length : Int) b.length (-1)
        (diagAt ((a.length : Int) + b.length)
          (List.replicate (2 * (a.length + b.length) + 1) (0 : Int))) := by
      refine ⟨?_, ?_, ?_, ?_, ?_, ?_, ?_⟩
      · intro k h1 h2; omega
      · intro k h1 h2; omega
      · intro k h1 h2; omega
      · intro k h1 h2; omega
      · rw [diagAt_replicate]; omega
      · intro h; omega
      · intro _; exact diagAt_replicate _ _ _
    obtain ⟨top, savedC, final, hrun, htop0, htopM, hlenC, hhist, hfinal⟩ :=
      dLoop_spec a b ((a.length : Int) + b.length) rfl hM1 (a.length + b.length + 1) (-1)
        (List.replicate (2 * (a.length + b.length) + 1) (0 : Int)) [] (le_refl _)
        (by push_cast; omega) (by simp) (by simp only [List.length_replicate]; push_cast; omega)
        hgood0 (fun h => by omega) (fun i hi => by simp at hi)
    have e0 : (-1 : Int) + 1 = 0 := by norm_num
    rw [e0] at hrun
    rw [hrun]
    simp only
    by_cases ht : top = 0
    · rw [if_pos ht]
      exact ⟨_, rfl⟩
    · rw [if_neg ht]
      obtain ⟨P, hP, hgoodP, hlenF, hkeepF, hK1, hK2, hKpar, hKval, hKst⟩ := hfinal (by omega)
      have hfin : (savedC ++ [final]).get? top.toNat = some final := by
        have : top.toNat = savedC.length := by omega
        rw [this]
        simp [List.get?_eq_getElem?]
      obtain ⟨x2, y2, chunks, htrace, hx0, hxa⟩ :=
        traceLoop_spec a b _ rfl savedC final hhist (by omega) top.toNat a.length b.length []
          (by omega) (fun h => by omega) (by
            intro d2 hd2
            have hd2' : (d2 : Int) = top - 1 := by omega
            have hPget : (savedC ++ [final]).get? d2 = some P := by
              rw [List.get?_eq_getElem?, List.getElem?_append_left (by omega),
                ← List.get?_eq_getElem?]
              have : (top - 1).toNat = d2 := by omega
              rw [this] at hP
              exact hP
            rw [hd2] at hfin
            refine ⟨final, P, hfin, hPget, ?_, hlenF, ?_, ?_, ?_, ?_, hKval, ?_, le_refl _,
              le_refl _⟩
            · rw [hd2']; exact hgoodP
            · intro k h1 h2 h3
              exact hkeepF k h1 h2 (by omega)
            · omega
            · omega
            · omega
            · have e : (d2 : Int) + 1 = top := by omega
              rw [e]
              exact hKst)
      rw [htrace]
      simp only
      obtain ⟨r, hr⟩ : ∃ r, (if x2 > 0 then slice? a 0 x2 else some []) = some r := by
        by_cases c : x2 > 0
        · rw [if_pos c]
          exact slice?_some a 0 x2 (le_refl _) (by omega) (by omega)
        · rw [if_neg c]
          exact ⟨_, rfl⟩
      rw [hr]
      simp only
      split
      · exact ⟨_, rfl⟩
      · exact ⟨_, rfl⟩

/-! ### json.Indent and json.Valid refuse the same bodies -/

theorem ite_sound (p : Prop) [Decidable p] (a b : Scanner × ScanCode)
    (ha : sound a) (hb : sound b) : sound (if p then a else b) := by
  split
  · exact ha
  · exact hb

theorem set_sound (s : Scanner) (v : ScanCode) (hs : s.step ≠ .error) (hv : v ≠ .scanError) :
    sound (s, v) :=
  ⟨fun h => absurd h hs, fun h => absurd h hv⟩

theorem keep_sound (s : Scanner) (v : ScanCode) (hs : s.sane) (hv : v ≠ .scanError) :
    sound (s, v) :=
  ⟨hs, fun h => absurd h hv⟩

theorem error_sound (s : Scanner) (c : Char) (ctx : String) : sound (s.error c ctx) :=
  ⟨fun _ => rfl, fun _ => rfl⟩

theorem pushParseState_sound (s : Scanner) (c : Char) (p : ParseState) (v : ScanCode)
    (hs : s.step ≠ .error) (hv : v ≠ .scanError) : sound (s.pushParseState c p v) := by
  unfold Scanner.pushParseState
  simp only
  split
  · exact set_sound _ _ hs hv
  · exact error_sound _ _ _

theorem popParseState_step (s : Scanner) : s.popParseState.step ≠ .error := by
  unfold Scanner.popParseState
  simp only
  split
  · exact fun h => StepFn.noConfusion h
  · exact fun h => StepFn.noConfusion h

theorem stateEndTop_sound (s : Scanner) (c : Char) (hs : s.sane) : sound (stateEndTop s c) := by
  unfold stateEndTop
  split
  · exact ⟨fun _ => rfl, fun h => absurd h (by simp)⟩
  · exact keep_sound s _ hs (by decide)

theorem stateEndValue_sound (s : Scanner) (c : Char) : sound (stateEndValue s c) := by
  unfold stateEndValue
  split
  · exact stateEndTop_sound { s with step := .endTop, endTop := true } c
      (fun h => StepFn.noConfusion h)
  · refine ite_sound _ _ _ (set_sound _ _ (by simp) (by decide)) ?_
    split
    · exact ite_sound _ _ _ (set_sound _ _ (by simp) (by decide)) (error_sound _ _ _)
    · exact ite_sound _ _ _ (set_sound _ _ (by simp) (by decide))
        (ite_sound _ _ _ (set_sound _ _ (popParseState_step s) (by decide))
          (error_sound _ _ _))
    · exact ite_sound _ _ _ (set_sound _ _ (by simp) (by decide))
        (ite_sound _ _ _ (set_sound _ _ (popParseState_step s) (by decide))
          (error_sound _ _ _))

theorem stateBeginValue_sound (s : Scanner) (c : Char) (hs : s.sane) :
    sound (stateBeginValue s c) := by
  unfold stateBeginValue
  refine ite_sound _ _ _ (keep_sound s _ hs (by decide)) ?_
  refine ite_sound _ _ _
    (pushParseState_sound { s with step := .beginStringOrEmpty } c _ _ (by simp)
      (by decide)) ?_
  refine ite_sound _ _ _
    (pushParseState_sound { s with step := .beginValueOrEmpty } c _ _ (by simp)
      (by decide)) ?_
  refine ite_sound _ _ _ (set_sound _ _ (by simp) (by decide)) ?_
  refine ite_sound _ _ _ (set_sound _ _ (by simp) (by decide)) ?_
  refine ite_sound _ _ _ (set_sound _ _ (by simp) (by decide)) ?_
  refine ite_sound _ _ _ (set_sound _ _ (by simp) (by decide)) ?_
  refine ite_sound _ _ _ (set_sound _ _ (by simp) (by decide)) ?_
  refine ite_sound _ _ _ (set_sound _ _ (by simp) (by decide)) ?_
  refine ite_sound _ _ _ (set_sound _ _ (by simp) (by decide)) ?_
  exact error_sound _ _ _

theorem stateBeginValueOrEmpty_sound (s : Scanner) (c : Char) (hs : s.sane) :
    sound (stateBeginValueOrEmpty s c) := by
  unfold stateBeginValueOrEmpty
  exact ite_sound _ _ _ (keep_sound s _ hs (by decide))
    (ite_sound _ _ _ (stateEndValue_sound s c) (stateBeginValue_sound s c hs))

theorem stateBeginString_sound (s : Scanner) (c : Char) (hs : s.sane) :
    sound (stateBeginString s c) := by
  unfold stateBeginString
  exact ite_sound _ _ _ (keep_sound s _ hs (by decide))
    (ite_sound _ _ _ (set_sound _ _ (by simp) (by decide)) (error_sound _ _ _))

theorem stateBeginStringOrEmpty_sound (s : Scanner) (c : Char) (hs : s.sane) :
    sound (stateBeginStringOrEmpty s c) := by
  unfold stateBeginStringOrEmpty
  exact ite_sound _ _ _ (keep_sound s _ hs (by decide))
    (ite_sound _ _ _
      (stateEndValue_sound { s with parseState := .parseObjectValue :: s.parseState.tail } c)
      (stateBeginString_sound s c hs))

theorem stateInString_sound (s : Scanner) (c : Char) (hs : s.sane) :
    sound (stateInString s c) := by
  unfold stateInString
  exact ite_sound _ _ _ (set_sound _ _ (by simp) (by decide))
    (ite_sound _ _ _ (set_sound _ _ (by simp) (by decide))
      (ite_sound _ _ _ (error_sound _ _ _) (keep_sound s _ hs (by decide))))

theorem stateInStringEsc_sound (s : Scanner) (c : Char) : sound (stateInStringEsc s c) := by
  unfold stateInStringEsc
  exact ite_sound _ _ _ (set_sound _ _ (by simp) (by decide))
    (ite_sound _ _ _ (set_sound _ _ (by simp) (by decide)) (error_sound _ _ _))

theorem stateHex_sound (next : StepFn) (s : Scanner) (c : Char) (hn : next ≠ .error) :
    sound (stateHex next s c) := by
  unfold stateHex
  exact ite_sound _ _ _ (set_sound _ _ hn (by decide)) (error_sound _ _ _)

theorem state0_sound (s : Scanner) (c : Char) : sound (state0 s c) := by
  unfold state0
  exact ite_sound _ _ _ (set_sound _ _ (by simp) (by decide))
    (ite_sound _ _ _ (set_sound _ _ (by simp) (by decide)) (stateEndValue_sound s c))

theorem state1_sound (s : Scanner) (c : Char) : sound (state1 s c) := by
  unfold state1
  exact ite_sound _ _ _ (set_sound _ _ (by simp) (by decide)) (state0_sound s c)

theorem stateNeg_sound (s : Scanner) (c : Char) : sound (stateNeg s c) := by
  unfold stateNeg
  exact ite_sound _ _ _ (set_sound _ _ (by simp) (by decide))
    (ite_sound _ _ _ (set_sound _ _ (by simp) (by decide)) (error_sound _ _ _))

theorem stateDot_sound (s : Scanner) (c : Char) : sound (stateDot s c) := by
  unfold stateDot
  exact ite_sound _ _ _ (set_sound _ _ (by simp) (by decide)) (error_sound _ _ _)

theorem stateDot0_sound (s : Scanner) (c : Char) (hs : s.sane) : sound (stateDot0 s c) := by
  unfold stateDot0
  exact ite_sound _ _ _ (keep_sound s _ hs (by decide))
    (ite_sound _ _ _ (set_sound _ _ (by simp) (by decide)) (stateEndValue_sound s c))

theorem stateESign_sound (s : Scanner) (c : Char) : sound (stateESign s c) := by
  unfold stateESign
  exact ite_sound _ _ _ (set_sound _ _ (by simp) (by decide)) (error_sound _ _ _)

theorem stateE_sound (s : Scanner) (c : Char) : sound (stateE s c) := by
  unfold stateE
  exact ite_sound _ _ _ (set_sound _ _ (by simp) (by decide)) (stateESign_sound s c)

theorem stateE0_sound (s : Scanner) (c : Char) (hs : s.sane) : sound (stateE0 s c) := by
  unfold stateE0
  exact ite_sound _ _ _ (keep_sound s _ hs (by decide)) (stateEndValue_sound s c)

theorem stateLit_sound (expect : Char) (next : StepFn) (ctx : String) (s : Scanner)
    (c : Char) (hn : next ≠ .error) : sound (stateLit expect next ctx s c) := by
  unfold stateLit
  exact ite_sound _ _ _ (set_sound _ _ hn (by decide)) (error_sound _ _ _)

theorem doStep_sound (s : Scanner) (c : Char) (hs : s.sane) : sound (s.doStep c) := by
  unfold Scanner.doStep
  split
  · exact stateBeginValueOrEmpty_sound s c hs
  · exact stateBeginValue_sound s c hs
  · exact stateBeginStringOrEmpty_sound s c hs
  · exact stateBeginString_sound s c hs
  · exact stateEndValue_sound s c
  · exact stateEndTop_sound s c hs
  · exact stateInString_sound s c hs
  · exact stateInStringEsc_sound s c
  · exact stateHex_sound _ s c (by decide)
  · exact stateHex_sound _ s c (by decide)
  · exact stateHex_sound _ s c (by decide)
  · exact stateHex_sound _ s c (by decide)
  · exact stateNeg_sound s c
  · exact state1_sound s c
  · exact state0_sound s c
  · exact stateDot_sound s c
  · exact stateDot0_sound s c hs
  · exact stateE_sound s c
  · exact stateESign_sound s c
  · exact stateE0_sound s c hs
  · exact stateLit_sound _ _ _ s c (by decide)
  · exact stateLit_sound _ _ _ s c (by decide)
  · exact stateLit_sound _ _ _ s c (by decide)
  · exact stateLit_sound _ _ _ s c (by decide)
  · exact stateLit_sound _ _ _ s c (by decide)
  · exact stateLit_sound _ _ _ s c (by decide)
  · exact stateLit_sound _ _ _ s c (by decide)
  · exact stateLit_sound _ _ _ s c (by decide)
  · exact stateLit_sound _ _ _ s c (by decide)
  · exact stateLit_sound _ _ _ s c (by decide)
  · rename_i h
    exact ⟨hs, fun _ => hs h⟩

theorem eof_err (s : Scanner) (h : s.eof.2 = .scanError) : s.eof.1.err.isSome = true := by
  unfold Scanner.eof at h ⊢
  split
  · assumption
  · rename_i h1
    rw [if_neg h1] at h
    split
    · rename_i h2
      rw [if_pos h2] at h
      exact absurd h (by simp)
    · rename_i h2
      rw [if_neg h2] at h
      simp only at h ⊢
      split
      · rename_i h3
        rw [if_pos h3] at h
        exact absurd h (by simp)
      · split
        · rfl
        · rename_i h4
          cases he : (s.doStep ' ').1.err with
          | none => rw [he] at h4; exact absurd rfl h4
          | some e => rfl

theorem scanLoop_sane (data : Str) :
    ∀ s : Scanner, s.sane →
      (scanLoop s data).1.sane ∧
      ((scanLoop s data).2 = true → (scanLoop s data).1.err.isSome = true) := by
  induction data with
  | nil =>
    intro s hs
    exact ⟨hs, fun h => absurd h (by simp [scanLoop])⟩
  | cons c data ih =>
    intro s hs
    have hd := doStep_sound { s with bytes := s.bytes + 1 } c hs
    rw [scanLoop]
    split
    · rename_i h
      exact ⟨hd.1, fun _ => hd.2 h⟩
    · exact ih _ hd.1

theorem ite_scan (scan : Scanner) (p : Prop) [Decidable p] (a b : IndentLoop)
    (ha : a.scan = scan) (hb : b.scan = scan) : (if p then a else b).scan = scan := by
  split
  · exact ha
  · exact hb

theorem indentEmit_scan (pre indent : Str) (st : IndentLoop) (scan : Scanner) (v : ScanCode)
    (c : Char) : (indentEmit pre indent st scan v c).scan = scan := by
  unfold indentEmit
  exact ite_scan _ _ _ _ rfl (ite_scan _ _ _ _ rfl (ite_scan _ _ _ _ rfl
    (ite_scan _ _ _ _ rfl (ite_scan _ _ _ _ (ite_scan _ _ _ _ rfl rfl) rfl))))

/-- The scanner of `json.Indent` after its loop is the scanner of `checkValid` after its
loop. -/
theorem indentLoop_scan (pre indent : Str) (src : Str) :
    ∀ st : IndentLoop, (indentLoop pre indent st src).scan = (scanLoop st.scan src).1 := by
  induction src with
  | nil => intro st; rfl
  | cons c src ih =>
    intro st
    rw [indentLoop, scanLoop]
    simp only
    split
    · rename_i h
      rw [if_neg (by rw [h]; decide)]
      exact ih _
    · split
      · rfl
      · rw [ih, indentEmit_scan]

/-- The function `prettyString` returns an error exactly when `checkValid` does, and the
string returned with an error is empty. -/
theorem prettyString_checkValid (str : Str) :
    ((prettyString str).2 = none ↔ checkValid str = none) ∧
    (checkValid str ≠ none → (prettyString str).1 = []) := by
  suffices key : (prettyString str).2 = checkValid str ∧
      (checkValid str ≠ none → (prettyString str).1 = []) by
    rw [key.1]
    exact ⟨Iff.rfl, key.2⟩
  have hsl := scanLoop_sane str newScanner (fun h => StepFn.noConfusion h)
  have hscan := indentLoop_scan [] "    ".toList str
    { dst := [], scan := newScanner, needIndent := false, depth := 0 }
  simp only at hscan
  unfold prettyString jsonIndent checkValid
  simp only
  rw [hscan]
  generalize scanLoop newScanner str = r at hsl
  obtain ⟨s, hit⟩ := r
  simp only at hsl ⊢
  cases hit with
  | true =>
    have herr := hsl.2 rfl
    have he : s.eof = (s, ScanCode.scanError) := by
      unfold Scanner.eof
      rw [if_pos herr]
    rw [he]
    simp only [if_true]
    cases hs : s.err with
    | none => rw [hs] at herr; exact absurd herr (by decide)
    | some e => simp
  | false =>
    have herr := eof_err s
    cases he : s.eof with
    | mk s2 v =>
      rw [he] at herr
      simp only at herr ⊢
      by_cases hv : v = ScanCode.scanError
      · have h2 := herr hv
        rw [if_pos hv]
        cases hs : s2.err with
        | none => rw [hs] at h2; exact absurd h2 (by decide)
        | some e => simp [hv]
      · simp [hv]

theorem prettyString_invalid (str : Str) (h : validJSON str = false) :
    (prettyString str).1 = [] ∧ (prettyString str).2 ≠ none := by
  have hc : checkValid str ≠ none := by
    intro e
    unfold validJSON at h
    rw [e] at h
    exact absurd h (by decide)
  obtain ⟨h1, h2⟩ := prettyString_checkValid str
  exact ⟨h2 hc, fun e => hc (h1.mp e)⟩

theorem prettyString_valid (str : Str) (h : validJSON str = true) :
    (prettyString str).2 = none := by
  unfold validJSON at h
  exact (prettyString_checkValid str).1.mpr (Option.isNone_iff_eq_none.mp h)

/-! ### The two responses of compareResponses -/

theorem compareResponses_pair (h0 h1 v0 v1 : Str) :
    compareResponses [(h0, v0), (h1, v1)] =
      (Diff (prettyString v1).1 (prettyString v0).1).bind
        (fun diff => (colorize diff).map (fun colored => colored ++ "\n".toList)) := by
  simp only [compareResponses, List.map_cons, List.map_nil, List.get?_cons_zero,
    List.get?_cons_succ]
  cases Diff (prettyString v1).1 (prettyString v0).1 with
  | none => rfl
  | some d =>
    cases hc : colorize d with
    | none => simp [hc]
    | some c => simp [hc]

/-! ## Claim on malformed bodies -/

/-- C9: `prettyString` returns the empty string together with an error for a body that
`json.Valid` refuses, and no error for a body that it accepts; `compareResponses` drops the
error, so that for two malformed bodies (equal or not) the diff is `diff.Diff` of two empty
strings, and the printed text, a single newline, has no line beginning with `+` or `-`;
when one body is malformed the diff is computed between the normalized text of the other
body and the empty string. -/
theorem compareResponses_malformed (h0 h1 v0 v1 : Str) :
    (validJSON v0 = false → (prettyString v0).1 = [] ∧ (prettyString v0).2 ≠ none) ∧
    (validJSON v0 = true → (prettyString v0).2 = none) ∧
    (validJSON v0 = false → validJSON v1 = false →
      compareResponses [(h0, v0), (h1, v1)] =
          (Diff [] []).bind
            (fun diff => (colorize diff).map (fun colored => colored ++ "\n".toList)) ∧
        ∃ out, compareResponses [(h0, v0), (h1, v1)] = some out ∧
          (∀ line ∈ splitLines out, line.head? ≠ some '+' ∧ line.head? ≠ some '-') ∧
          out = "\n".toList) ∧
    (validJSON v0 = false →
      compareResponses [(h0, v0), (h1, v1)] =
        (Diff (prettyString v1).1 []).bind
          (fun diff => (colorize diff).map (fun colored => colored ++ "\n".toList))) ∧
    (validJSON v1 = false →
      compareResponses [(h0, v0), (h1, v1)] =
        (Diff [] (prettyString v0).1).bind
          (fun diff => (colorize diff).map (fun colored => colored ++ "\n".toList))) := by
  refine ⟨prettyString_invalid v0, prettyString_valid v0, ?_, ?_, ?_⟩
  · intro e0 e1
    have p0 := (prettyString_invalid v0 e0).1
    have p1 := (prettyString_invalid v1 e1).1
    have hc := compareResponses_pair h0 h1 v0 v1
    rw [p0, p1] at hc
    refine ⟨hc, "\n".toList, ?_, by decide, rfl⟩
    rw [hc]
    decide
  · intro e0
    have hc := compareResponses_pair h0 h1 v0 v1
    rw [(prettyString_invalid v0 e0).1] at hc
    exact hc
  · intro e1
    have hc := compareResponses_pair h0 h1 v0 v1
    rw [(prettyString_invalid v1 e1).1] at hc
    exact hc

theorem compareResponses_malformed_witness :
    validJSON "oops".toList = false ∧ validJSON "[1,".toList = false ∧
      validJSON "[1]".toList = true ∧
      (∃ out, compareResponses
          [("http://a".toList, "oops".toList), ("http://b".toList, "[1,".toList)] = some out ∧
        (∀ line ∈ splitLines out, line.head? ≠ some '+' ∧ line.head? ≠ some '-') ∧
        out = "\n".toList) ∧
      compareResponses [("http://a".toList, "oops".toList), ("http://b".toList, "[1]".toList)] =
        (Diff (prettyString "[1]".toList).1 []).bind
          (fun diff => (colorize diff).map (fun colored => colored ++ "\n".toList)) ∧
      compareResponses [("http://a".toList, "[1]".toList), ("http://b".toList, "[1,".toList)] =
        (Diff [] (prettyString "[1]".toList).1).bind
          (fun diff => (colorize diff).map (fun colored => colored ++ "\n".toList)) ∧
      ((prettyString "oops".toList).1 = [] ∧ (prettyString "oops".toList).2 ≠ none) ∧
      (prettyString "[1]".toList).2 = none :=
  ⟨by decide, by decide, by decide,
   ((compareResponses_malformed _ _ _ _).2.2.1 (by decide) (by decide)).2,
   (compareResponses_malformed _ _ _ _).2.2.2.1 (by decide),
   (compareResponses_malformed _ _ _ _).2.2.2.2 (by decide),
   (compareResponses_malformed [] [] "oops".toList []).1 (by decide),
   (compareResponses_malformed [] [] "[1]".toList []).2.1 (by decide)⟩

/-! ## Claim on identical responses -/

/-- C7: when the two collected responses are the same body `x`, the diff computed in
`compareResponses`, `diff.Diff` of the normalized text against itself, has no chunk with an
added or a deleted line (it has no chunk at all: the diff text is empty), no line of the
diff text begins with `+` or `-`, and `compareResponses` prints a text, a single newline,
in which no line begins with `+` or `-` and none of the color escape codes occurs. -/
theorem compareResponses_identical (h0 h1 x : Str) :
    ∃ chunks diff out,
      DiffChunks (splitLines (prettyString x).1) (splitLines (prettyString x).1) =
        some chunks ∧
      (∀ c ∈ chunks, c.Added = [] ∧ c.Deleted = []) ∧
      Diff (prettyString x).1 (prettyString x).1 = some diff ∧
      (∀ line ∈ splitLines diff, line.head? ≠ some '+' ∧ line.head? ≠ some '-') ∧
      compareResponses [(h0, x), (h1, x)] = some out ∧
      (∀ line ∈ splitLines out, line.head? ≠ some '+' ∧ line.head? ≠ some '-') ∧
      ¬ Green <:+: out ∧ ¬ Red <:+: out ∧ ¬ Reset <:+: out ∧
      chunks = [] ∧ diff = [] ∧ out = "\n".toList := by
  have hself := DiffChunks_self (splitLines (prettyString x).1)
  have hd : Diff (prettyString x).1 (prettyString x).1 = some [] := by
    unfold Diff
    rw [hself]
    rfl
  have hesc : '\x1b' ∉ "\n".toList := by decide
  refine ⟨[], [], "\n".toList, hself, by simp, hd, by decide, ?_, by decide,
    fun h => hesc (h.subset (by decide)), fun h => hesc (h.subset (by decide)),
    fun h => hesc (h.subset (by decide)), rfl, rfl, rfl⟩
  rw [compareResponses_pair, hd]
  decide

/-! ## Claim on the marks of the diff -/

/-- C6 (counterexample): with the well-formed bodies `1` (first) and `2` (second), the
printed diff marks `2` removed (red) and `1` added (green); the added line `1` is a line of
the first normalized response and not of the second, the removed line `2` a line of the
second and not of the first. -/
theorem compareResponses_marks_counterexample :
    validJSON "1".toList = true ∧ validJSON "2".toList = true ∧
    compareResponses [("http://a".toList, "1".toList), ("http://b".toList, "2".toList)] =
      some (Red ++ "-2".toList ++ Reset ++ "\n".toList ++
        (Green ++ "+1".toList ++ Reset ++ "\n".toList) ++ "\n".toList) ∧
    "1".toList ∉ splitLines (prettyString "2".toList).1 ∧
    "2".toList ∉ splitLines (prettyString "1".toList).1 := by
  decide

/-- The spec's second scenario, evaluated: the first host returns `id` and `name`, the
second `id` only; the `name` line of the first response is printed green, marked `+`. -/
theorem compareResponses_scenario :
    compareResponses [("http://a".toList, "\x7b\"id\":7,\"name\":\"x\"\x7d".toList),
        ("http://b".toList, "\x7b\"id\":7\x7d".toList)] =
      some (" \x7b\n".toList ++ (Red ++ "-    \"id\": 7".toList ++ Reset ++ "\n".toList) ++
        (Green ++ "+    \"id\": 7,".toList ++ Reset ++ "\n".toList) ++
        (Green ++ "+    \"name\": \"x\"".toList ++ Reset ++ "\n".toList) ++
        " \x7d\n".toList ++ "\n".toList) := by
  decide

theorem colorize_diff (A B d : Str) (h : Diff A B = some d) :
    ∃ colored, colorize d = some colored := by
  obtain ⟨chunks, _, _, hcases, _, _⟩ := Diff_lines A B d h
  rcases hcases with ⟨_, rfl⟩ | ⟨hsplit, _⟩
  · exact ⟨[], by decide⟩
  have hne : ∀ s ∈ scanLines d, s ≠ [] := by
    intro s hs
    obtain ⟨l, hl, rfl⟩ := scanFrom_mem d [] s hs
    have hl2 : l ∈ splitLines d := hl
    rw [hsplit] at hl2
    obtain ⟨c, _, ⟨l1, _, rfl⟩ | ⟨l1, _, rfl⟩ | ⟨l1, _, rfl⟩⟩ := (mem_diffLines chunks l).mp hl2
    · obtain ⟨l2, e, _⟩ := dropCR_cons '+' l1 (by decide)
      rw [e]; simp
    · obtain ⟨l2, e, _⟩ := dropCR_cons '-' l1 (by decide)
      rw [e]; simp
    · obtain ⟨l2, e, _⟩ := dropCR_cons ' ' l1 (by decide)
      rw [e]; simp
  exact ⟨_, colorizeLoop_all _ hne []⟩

/-- C6 (amended): for every pair of collected bodies `compareResponses` prints (no index,
slice or scan fails); the diff text it hands to `colorize` is `diff.Diff` of the normalized
second response against the normalized first one.  That text is empty exactly when the two
normalized responses have the same lines; when it is not empty, every line of it is `+`
followed by a line of the normalized first response `prettyString(values[0])` (marked
added, rendered green), or `-` followed by a line of the normalized second response
`prettyString(values[1])` (marked removed, rendered red), or a blank followed by a line of
the normalized second response (unchanged). -/
theorem compareResponses_marks (h0 h1 v0 v1 : Str) :
    ∃ out diff colored,
      compareResponses [(h0, v0), (h1, v1)] = some out ∧
      Diff (prettyString v1).1 (prettyString v0).1 = some diff ∧
      colorize diff = some colored ∧ out = colored ++ "\n".toList ∧
      (diff = [] ↔ splitLines (prettyString v1).1 = splitLines (prettyString v0).1) ∧
      (diff ≠ [] →
        ∀ line ∈ splitLines diff,
          (∃ l, line = '+' :: l ∧ l ∈ splitLines (prettyString v0).1) ∨
          (∃ l, line = '-' :: l ∧ l ∈ splitLines (prettyString v1).1) ∨
          (∃ l, line = ' ' :: l ∧ l ∈ splitLines (prettyString v1).1)) := by
  obtain ⟨cs, hcs⟩ := DiffChunks_total (splitLines (prettyString v1).1)
    (splitLines (prettyString v0).1)
  have hd : Diff (prettyString v1).1 (prettyString v0).1 = some (Render cs) := by
    unfold Diff
    rw [hcs]
    rfl
  obtain ⟨colored, hc⟩ := colorize_diff _ _ _ hd
  obtain ⟨chunks, hch, _, hcases, hmarked, hfrom⟩ := Diff_lines _ _ _ hd
  refine ⟨colored ++ "\n".toList, Render cs, colored, ?_, hd, hc, rfl, ⟨?_, ?_⟩, ?_⟩
  · rw [compareResponses_pair, hd]
    simp [hc]
  · intro e
    rcases hcases with ⟨rfl, _⟩ | ⟨hsplit, _⟩
    · exact DiffChunks_nil _ _ hch
    · have hmem : [] ∈ diffLines chunks := by
        rw [← hsplit, e]
        decide
      obtain ⟨c, l, hcl, _⟩ := hmarked _ hmem
      cases hcl
  · intro e
    rw [e, DiffChunks_self] at hcs
    cases hcs
    rfl
  · intro hne
    rcases hcases with ⟨_, e⟩ | ⟨hsplit, _⟩
    · exact absurd e hne
    intro line hline
    rw [hsplit] at hline
    obtain ⟨c, hc, ⟨l, hl, rfl⟩ | ⟨l, hl, rfl⟩ | ⟨l, hl, rfl⟩⟩ :=
      (mem_diffLines chunks line).mp hline
    · exact Or.inl ⟨l, rfl, (hfrom c hc).1 l hl⟩
    · exact Or.inr (Or.inl ⟨l, rfl, (hfrom c hc).2.1 l hl⟩)
    · exact Or.inr (Or.inr ⟨l, rfl, (hfrom c hc).2.2 l hl⟩)

end ApiRespDiff
